import Mathlib

/-!
Verification of the electricity-price optimizer.

This file gives a shallow embedding, in Lean 4, of the core of the
`electricity_price_optimizer_py` repository (a Rust code base): the
min-cost-max-flow engine (`optimizer/flow_optimizer/flow/MCMF.rs`), the
snapshot stack (`helper/stack_proxy.rs`), the time-expanded graph builder
and the smart-home flow wrapper (`optimizer/mod.rs`), the annealing state
(`simulated_annealing/state.rs`, `change/random_move.rs`) and the
Metropolis acceptance step of the annealing driver
(`simulated_annealing/mod.rs`).

Machine integers (`i64`, `usize`) are modelled as unbounded `Int`/`Nat`;
the algorithm keeps all quantities far below `2^63`, so wrap-around is
unreachable and the unbounded model is faithful.  Rust panics and
`Option::unwrap` are modelled by `Option`-returning functions (`none` =
the process aborts).  Loops without a structural termination measure are
modelled with explicit fuel; exhausting the fuel yields `none`
(divergence), and all theorems either hold for every fuel or take the
fuel as a parameter.  The `f32`/`f64` floating-point values
(`first_timestep_fraction`, the annealing temperature) are modelled as
exact rationals / reals.
-/

namespace EPO

/-- `usize::MAX`, the sentinel used by the Rust code for "no predecessor". -/
def USIZE_MAX : Nat := 2 ^ 64 - 1

/-- `INF = 1 << 60`, the sentinel distance (`MCMF.rs`). -/
def INF : Int := 2 ^ 60

/-- `i64::MAX`, used by the builder as an unlimited capacity. -/
def I64_MAX : Int := 2 ^ 63 - 1

/-- One residual edge of the flow graph (`struct Edge` in `MCMF.rs`):
target node (the source field `to`; `to` is reserved in Lean, so it is
called `dst` here), remaining capacity `f`, unit cost. -/
structure Edge where
  dst : Nat
  f : Int
  cost : Int
deriving DecidableEq, Repr

instance : Inhabited Edge := ⟨⟨0, 0, 0⟩⟩

/-- The min-cost-flow engine state (`struct MinCostFlow` in `MCMF.rs`). -/
structure MinCostFlow where
  n : Nat
  edges : List Edge
  adj : List (List Nat)
  pref : List Nat
  con : List Nat
  dist : List Int
  pi : List Int
  s : Nat
  t : Nat
  maxflow : Int
  mincost : Int
deriving Repr, DecidableEq

namespace MinCostFlow

/-- `MinCostFlow::new()`: a two-node graph, source 0 and sink 1. -/
def new : MinCostFlow :=
  { n := 2, edges := [], adj := [[], []], pref := [], con := [], dist := [],
    pi := [], s := 0, t := 1, maxflow := 0, mincost := 0 }

/-- `MinCostFlow::new_node()`: append a node, return its id. -/
def new_node (g : MinCostFlow) : Nat × MinCostFlow :=
  (g.n, { g with n := g.n + 1, adj := g.adj ++ [[]] })

/-- `MinCostFlow::add_edge(u, v, cap, cost)`: append the forward edge and its
reverse (capacity 0, cost negated), record both in the adjacency lists, and
return the forward edge's index. -/
def add_edge (g : MinCostFlow) (u v : Nat) (cap cost : Int) : Nat × MinCostFlow :=
  let handle := g.edges.length
  let adj1 := g.adj.modify (fun l => l ++ [handle]) u
  let edges1 := g.edges ++ [⟨v, cap, cost⟩]
  let adj2 := adj1.modify (fun l => l ++ [handle + 1]) v
  let edges2 := edges1 ++ [⟨u, 0, -cost⟩]
  (handle, { g with edges := edges2, adj := adj2 })

/-- `edges[id].f -= w; edges[id ^ 1].f += w` on a raw edge list. -/
def edgesPush (l : List Edge) (id : Nat) (w : Int) : List Edge :=
  (l.modify (fun e => { e with f := e.f - w }) id).modify
    (fun e => { e with f := e.f + w }) (id ^^^ 1)

/-- Push `w` units over residual edge `id`: `edges[id].f -= w;
edges[id ^ 1].f += w`.  This is the single primitive through which the
engine ever mutates residual capacities (`extend` and
`cancel_negative_cycle` in `MCMF.rs`). -/
def pushFlow (g : MinCostFlow) (id : Nat) (w : Int) : MinCostFlow :=
  { g with edges := edgesPush g.edges id w }

/-- Read `pref[u]`, defaulting to the `usize::MAX` sentinel. -/
def prefAt (g : MinCostFlow) (u : Nat) : Nat := g.pref.getD u USIZE_MAX

/-- Read `dist[u]`, defaulting to `INF`. -/
def distAt (g : MinCostFlow) (u : Nat) : Int := g.dist.getD u INF

/-- Read `con[u]` (the incoming tree edge), defaulting to 0. -/
def conAt (g : MinCostFlow) (u : Nat) : Nat := g.con.getD u 0

/-- Read `pi[u]` (the node potential), defaulting to 0. -/
def piAt (g : MinCostFlow) (u : Nat) : Int := g.pi.getD u 0

/-- Read `edges[id]`, defaulting to a dummy edge. -/
def edgeAt (g : MinCostFlow) (id : Nat) : Edge := g.edges.getD id default

/-- Read `adj[u]`, defaulting to the empty list. -/
def adjAt (g : MinCostFlow) (u : Nat) : List Nat := g.adj.getD u []

/-- Walk the `pref` chain once: `u = self.pref[u]`. -/
def prefStep (g : MinCostFlow) (u : Nat) : Nat := g.prefAt u

/-- The do-while loop of `cancel_negative_cycle` collecting the cycle's
edges: `loop { id = con[u]; push id; u = pref[u]; if u == cycle_start break }`.
The source loop is unbounded; the embedding bounds it by fuel (any genuine
predecessor cycle closes within `n` steps, and no theorem below depends on
the truncated regime, where the Rust loop would never terminate). -/
def collectCycle (g : MinCostFlow) : Nat → Nat → Nat → List Nat
  | 0, _, _ => []
  | fuel + 1, cycleStart, u =>
    let id := g.conAt u
    let u1 := g.prefStep u
    if u1 = cycleStart then [id] else id :: collectCycle g fuel cycleStart u1

/-- `MinCostFlow::cancel_negative_cycle(start)`: walk `pref` `n` times to
enter the cycle, collect the cycle's edges and bottleneck, push the
bottleneck around the cycle and charge `cycle_cost * min_cap` to `mincost`. -/
def cancelNegativeCycle (g : MinCostFlow) (start : Nat) : MinCostFlow :=
  let n := g.adj.length
  let cycleStart := (fun u => g.prefStep u)^[n] start
  let ids := collectCycle g (n + 1) cycleStart cycleStart
  let minCap := ids.foldl (fun acc id => min acc (g.edgeAt id).f) INF
  let cycleCost := ids.foldl (fun acc id => acc + (g.edgeAt id).cost) 0
  let g1 := ids.foldl (fun h id => pushFlow h id minCap) g
  { g1 with mincost := g1.mincost + cycleCost * minCap }

/-- Transient SPFA bookkeeping: the in-queue flags, relaxation counters and
the FIFO queue of `spfa_with_cycle_cancel`. -/
structure SpfaSt where
  inq : List Bool
  cnt : List Nat
  q : List Nat
deriving Repr

/-- The edge-relaxation scan over `adj[u]` inside the SPFA queue loop.
Returns the updated engine and bookkeeping, and `some v` when `cnt[v]`
reached `n` (negative-cycle detection aborts the scan). -/
def relaxScan (g : MinCostFlow) (st : SpfaSt) (u : Nat) :
    List Nat → MinCostFlow × SpfaSt × Option Nat
  | [] => (g, st, none)
  | id :: rest =>
    let e := g.edgeAt id
    if e.f > 0 ∧ g.distAt e.dst > g.distAt u + e.cost then
      let g1 := { g with
        dist := g.dist.set e.dst (g.distAt u + e.cost),
        pref := g.pref.set e.dst u,
        con := g.con.set e.dst id }
      let st1 := { st with cnt := st.cnt.set e.dst (st.cnt.getD e.dst 0 + 1) }
      if g1.adj.length ≤ st1.cnt.getD e.dst 0 then
        (g1, st1, some e.dst)
      else
        let st2 :=
          if st1.inq.getD e.dst false then st1
          else { st1 with inq := st1.inq.set e.dst true, q := st1.q ++ [e.dst] }
        relaxScan g1 st2 u rest
    else relaxScan g st u rest

/-- The array initialisation at the top of `spfa_with_cycle_cancel`. -/
def spfaInitG (g : MinCostFlow) : MinCostFlow :=
  let n := g.adj.length
  { g with
    pref := (List.replicate n USIZE_MAX).set g.s g.s,
    dist := (List.replicate n INF).set g.s 0 }

/-- The fresh queue/flag/counter state at the top of
`spfa_with_cycle_cancel`. -/
def spfaInitSt (g : MinCostFlow) : SpfaSt :=
  let n := g.adj.length
  { inq := (List.replicate n false).set g.s true,
    cnt := List.replicate n 0,
    q := [g.s] }

/-- The SPFA queue loop.  On negative-cycle detection it cancels the cycle
and restarts from freshly initialised arrays, exactly like the recursive
`return self.spfa_with_cycle_cancel()` in the source.  Fuel bounds the
total number of dequeue steps and restarts. -/
def spfaAux : Nat → MinCostFlow → SpfaSt → Option (MinCostFlow × Bool)
  | 0, _, _ => none
  | fuel + 1, g, st =>
    match st.q with
    | [] => some (g, decide (g.prefAt g.t ≠ USIZE_MAX))
    | u :: qrest =>
      let st0 : SpfaSt := { st with q := qrest, inq := st.inq.set u false }
      match relaxScan g st0 u (g.adjAt u) with
      | (g1, st1, none) => spfaAux fuel g1 st1
      | (g1, _, some v) =>
        let g2 := cancelNegativeCycle g1 v
        spfaAux fuel (spfaInitG g2) (spfaInitSt g2)

/-- `MinCostFlow::spfa_with_cycle_cancel()`. -/
def spfa (fuel : Nat) (g : MinCostFlow) : Option (MinCostFlow × Bool) :=
  spfaAux fuel (spfaInitG g) (spfaInitSt g)

/-- Lexicographic "smaller" test on `(dist, node)` pairs: the order in which
`BinaryHeap<Reverse<(i64, usize)>>` pops entries. -/
def heapLt (a b : Int × Nat) : Prop :=
  a.1 < b.1 ∨ (a.1 = b.1 ∧ a.2 < b.2)

instance : DecidablePred fun p : (Int × Nat) × (Int × Nat) => heapLt p.1 p.2 :=
  fun _ => by unfold heapLt; infer_instance

instance (a b : Int × Nat) : Decidable (heapLt a b) := by
  unfold heapLt; infer_instance

/-- Pop the minimum `(dist, node)` entry of the binary heap (modelled as an
unordered list; `BinaryHeap`'s comparator is total, so which entry is popped
is fully determined). -/
def heapPopMin (h : List (Int × Nat)) : Option ((Int × Nat) × List (Int × Nat)) :=
  match h with
  | [] => none
  | x :: xs =>
    let m := xs.foldl (fun a b => if heapLt b a then b else a) x
    some (m, (x :: xs).erase m)

/-- The edge-relaxation scan over `adj[u]` inside the Dijkstra loop
(reduced costs, `pi` guards). -/
def dijkstraScan (g : MinCostFlow) (h : List (Int × Nat)) (u : Nat) (d : Int) :
    List Nat → MinCostFlow × List (Int × Nat)
  | [] => (g, h)
  | id :: rest =>
    let e := g.edgeAt id
    let v := e.dst
    if e.f > 0 ∧ g.piAt u ≠ INF ∧ g.piAt v ≠ INF then
      let nd := d + (e.cost - g.piAt v + g.piAt u)
      if nd < g.distAt v then
        let g1 := { g with
          dist := g.dist.set v nd,
          pref := g.pref.set v u,
          con := g.con.set v id }
        dijkstraScan g1 (h ++ [(nd, v)]) u d rest
      else dijkstraScan g h u d rest
    else dijkstraScan g h u d rest

/-- The Dijkstra pop loop (stale entries are skipped). -/
def dijkstraAux : Nat → MinCostFlow → List (Int × Nat) → Option MinCostFlow
  | 0, _, _ => none
  | fuel + 1, g, h =>
    match heapPopMin h with
    | none => some g
    | some ((d, u), h1) =>
      if d ≠ g.distAt u then dijkstraAux fuel g h1
      else
        let (g1, h2) := dijkstraScan g h1 u d (g.adjAt u)
        dijkstraAux fuel g1 h2

/-- `MinCostFlow::dijkstra()`: run the pop loop from `(0, s)`; if the sink
was not reached return `false`, otherwise rebase `dist` by the potentials
and return `true`. -/
def dijkstra (fuel : Nat) (g : MinCostFlow) : Option (MinCostFlow × Bool) :=
  let n := g.adj.length
  let g0 := { g with
    pref := (List.replicate n USIZE_MAX).set g.s g.s,
    dist := (List.replicate n INF).set g.s 0 }
  match dijkstraAux fuel g0 [(0, g.s)] with
  | none => none
  | some g1 =>
    if g1.prefAt g1.t = USIZE_MAX then some (g1, false)
    else
      let g2 := { g1 with
        dist := g1.dist.mapIdx fun i x => x - (g1.piAt g1.s - g1.piAt i) }
      some (g2, true)

/-- The while-loop of `extend` collecting the augmenting path's edges by
walking `pref`/`con` back from the sink (bounded by fuel; a sane
predecessor tree closes within `n` steps). -/
def pathIds (g : MinCostFlow) : Nat → Nat → List Nat
  | 0, _ => []
  | fuel + 1, u =>
    if g.prefStep u = u then []
    else g.conAt u :: pathIds g fuel (g.prefStep u)

/-- `MinCostFlow::extend()`: bottleneck `w` along the path, update
`maxflow`/`mincost`, push `w` along the path, fold `dist` into `pi`. -/
def extend (fuel : Nat) (g : MinCostFlow) : MinCostFlow :=
  let ids := pathIds g fuel g.t
  let w := ids.foldl (fun acc id => min acc (g.edgeAt id).f) INF
  let g1 := { g with
    maxflow := g.maxflow + w,
    mincost := g.mincost + g.distAt g.t * w }
  let g2 := ids.foldl (fun h id => pushFlow h id w) g1
  { g2 with pi := g2.pi.mapIdx fun i x => if g2.distAt i < INF then x + g2.distAt i else x }

/-- Phase 1 of `update_flow`: `while self.spfa_with_cycle_cancel() { self.extend(); }`. -/
def phase1 (F : Nat) : Nat → MinCostFlow → Option MinCostFlow
  | 0, _ => none
  | fuel + 1, g =>
    match spfa F g with
    | none => none
    | some (g1, true) => phase1 F fuel (extend F g1)
    | some (g1, false) => some g1

/-- Phase 2 of `update_flow`: `while self.dijkstra() { self.extend(); }`. -/
def phase2 (F : Nat) : Nat → MinCostFlow → Option MinCostFlow
  | 0, _ => none
  | fuel + 1, g =>
    match dijkstra F g with
    | none => none
    | some (g1, true) => phase2 F fuel (extend F g1)
    | some (g1, false) => some g1

/-- `Vec::resize(n, d)` as used by `update_flow` (only ever grows). -/
def resizeTo {α : Type} (l : List α) (n : Nat) (d : α) : List α :=
  if l.length < n then l ++ List.replicate (n - l.length) d else l

/-- `MinCostFlow::update_flow()`: grow `con`/`pi` if needed, run both
phases, return `(mincost, maxflow)` together with the final engine state. -/
def update_flow (F : Nat) (g : MinCostFlow) : Option ((Int × Int) × MinCostFlow) :=
  let n := g.adj.length
  let g0 := { g with con := resizeTo g.con n 0, pi := resizeTo g.pi n 0 }
  match phase1 F F g0 with
  | none => none
  | some g1 =>
    match phase2 F F g1 with
    | none => none
    | some g2 => some ((g2.mincost, g2.maxflow), g2)

/-- `MinCostFlow::mincostflow()`: reset `con`, `pi`, `maxflow`, `mincost`
and run `update_flow`. -/
def mincostflow (F : Nat) (g : MinCostFlow) : Option ((Int × Int) × MinCostFlow) :=
  let n := g.adj.length
  update_flow F { g with
    con := List.replicate n 0,
    pi := List.replicate n 0,
    maxflow := 0,
    mincost := 0 }

end MinCostFlow

/-! ### Predicates about the engine used by the theorems below -/

/-- Read an edge list at an index, defaulting like the engine's accessors. -/
def edAt (l : List Edge) (id : Nat) : Edge := l.getD id default

/-- Structure preservation between two edge lists: same length, and every
edge keeps its target and cost (only residual capacities `f` may differ). -/
def sameSkeleton (orig cur : List Edge) : Prop :=
  cur.length = orig.length ∧
  ∀ id : Nat, (edAt cur id).dst = (edAt orig id).dst ∧
    (edAt cur id).cost = (edAt orig id).cost

/-- Pair conservation: for every edge, the residual of the edge plus the
residual of its XOR-1 partner is unchanged (zero total skew). -/
def pairSums (orig cur : List Edge) : Prop :=
  ∀ id : Nat, (edAt cur id).f + (edAt cur (id ^^^ 1)).f =
    (edAt orig id).f + (edAt orig (id ^^^ 1)).f

/-- Full conservation invariant of the engine: structure preserved and
per-pair residual sums preserved. -/
def conserves (orig cur : List Edge) : Prop :=
  sameSkeleton orig cur ∧ pairSums orig cur

/-- No edge of the list points into node `v`. -/
def noEdgeInto (v : Nat) (l : List Edge) : Prop := ∀ e ∈ l, e.dst ≠ v

instance (v : Nat) (l : List Edge) : Decidable (noEdgeInto v l) := by
  unfold noEdgeInto; infer_instance

/-- One step in the residual graph: an adjacency-list edge with positive
remaining capacity. -/
def residualStep (g : MinCostFlow) (u v : Nat) : Prop :=
  ∃ id ∈ g.adjAt u, (g.edgeAt id).dst = v ∧ 0 < (g.edgeAt id).f

/-- Residual reachability: `v` can be reached from `u` by residual steps.
"No residual augmenting path from source to sink" is `¬ residualReach g g.s g.t`. -/
def residualReach (g : MinCostFlow) (u v : Nat) : Prop :=
  Relation.ReflTransGen (residualStep g) u v

/-! ### The snapshot stack (`helper/stack_proxy.rs`) -/

/-- `StackProxy<T>`: a non-empty stack of states whose top is the active
one (`Vec` with the top at the back, as in the source). -/
structure StackProxy (T : Type) where
  stack : List T
deriving Repr

namespace StackProxy

/-- `StackProxy::new(initial)`: singleton stack. -/
def new {T : Type} (x : T) : StackProxy T := ⟨[x]⟩

/-- The active (top) state: `self.stack.last()`. -/
def top? {T : Type} (s : StackProxy T) : Option T := s.stack.getLast?

/-- The bottom (baseline) state of the stack. -/
def bottom? {T : Type} (s : StackProxy T) : Option T := s.stack.head?

/-- The stack's depth. -/
def depth {T : Type} (s : StackProxy T) : Nat := s.stack.length

/-- `StackProxy::push()`: duplicate the top (`last().unwrap().clone()`;
on the empty stack the source would panic — the embedding leaves the
stack unchanged, and every theorem below works on non-empty stacks). -/
def push {T : Type} (s : StackProxy T) : StackProxy T :=
  match s.stack.getLast? with
  | some x => ⟨s.stack ++ [x]⟩
  | none => s

/-- `StackProxy::pop()`: discard the top, but fail fatally (`none`) if the
depth would drop below 1. -/
def pop {T : Type} (s : StackProxy T) : Option (StackProxy T) :=
  if 1 < s.stack.length then some ⟨s.stack.dropLast⟩ else none

/-- A non-stack operation forwarded to the top state (`DerefMut`). -/
def modifyTop {T : Type} (s : StackProxy T) (f : T → T) : StackProxy T :=
  match s.stack.getLast? with
  | some x => ⟨s.stack.dropLast ++ [f x]⟩
  | none => s

/-- Replace the top state. -/
def setTop {T : Type} (s : StackProxy T) (x : T) : StackProxy T :=
  s.modifyTop fun _ => x

/-- A sequence of non-stack operations, each forwarded to the top. -/
def applyAll {T : Type} (fs : List (T → T)) (s : StackProxy T) : StackProxy T :=
  fs.foldl (fun acc f => acc.modifyTop f) s

end StackProxy

/-! ### Time and the domain records (`time/mod.rs`, `optimizer_context/`) -/

/-- `MINUTES_PER_TIMESTEP` (the reference build uses 1). -/
def MINUTES_PER_TIMESTEP : Nat := 1

/-- `STEPS_PER_DAY = MINUTES_PER_DAY / MINUTES_PER_TIMESTEP = 1440`.
With `MINUTES_PER_TIMESTEP = 1` a `Time` (minutes) and its timestep
coincide, so times are embedded as plain naturals. -/
def STEPS_PER_DAY : Nat := 60 * 24 / MINUTES_PER_TIMESTEP

/-- `Battery` (`optimizer_context/battery.rs`).  The efficiency is stored
but never read by the graph encoding. -/
structure Battery where
  capacity : Int
  initial_level : Int
  maximum_charge_rate : Int
  maximum_output_rate : Int
  efficiency : ℚ
  id : Nat
deriving DecidableEq, Repr

/-- `VariableAction` (`optimizer_context/action/variable.rs`): a window
`[start, end)` (in timesteps), a mandatory total and a per-step cap. -/
structure VariableAction where
  start : Nat
  stop : Nat
  total_consumption : Int
  max_consumption : Int
  id : Nat
deriving DecidableEq, Repr

/-- `ConstantAction` (`optimizer_context/action/constant.rs`). -/
structure ConstantAction where
  start_from : Nat
  end_before : Nat
  duration : Nat
  consumption : Int
  id : Nat
deriving DecidableEq, Repr

/-- `AssignedConstantAction`: a constant action with a chosen start time. -/
structure AssignedConstantAction where
  action : ConstantAction
  start_time : Nat
deriving DecidableEq, Repr

namespace AssignedConstantAction

/-- `get_end_time`: `start_time + duration`. -/
def get_end_time (a : AssignedConstantAction) : Nat := a.start_time + a.action.duration

/-- The action's id. -/
def get_id (a : AssignedConstantAction) : Nat := a.action.id

end AssignedConstantAction

/-- `ConstantAction::with_start_time` builds an `AssignedConstantAction`;
the constructor asserts `start_from <= start_time && start_time + duration
<= end_before` and panics (`none`) otherwise. -/
def ConstantAction.with_start_time (a : ConstantAction) (st : Nat) :
    Option AssignedConstantAction :=
  if a.start_from ≤ st ∧ st + a.duration ≤ a.end_before then
    some ⟨a, st⟩
  else none

/-- Rust's `f32::round` (half away from zero) on the exact rational model
of the builder's `first_timestep_fraction` arithmetic. -/
def rustRound (x : ℚ) : Int :=
  if 0 ≤ x then ⌊x + 1 / 2⌋ else ⌈x - 1 / 2⌉

/-! ### The flow wrapper (`flow_optimizer/flow/wrapper.rs`) -/

/-- `FlowNode` (`wrapper.rs`): the logical node names used by the builder
and the smart-home flow. -/
inductive FlowNode where
  | Wire (t : Nat)
  | Action (id : Nat)
  | Battery (id : Nat) (t : Nat)
  | Source
  | Sink
  | Network
  | Generator
deriving DecidableEq, Repr

/-- The `(usize, usize)` key under which `IntoNode` registers a logical
node in the wrapper's `node_map` (`Source`/`Sink` bypass the map). -/
def FlowNode.key : FlowNode → Option (Nat × Nat)
  | .Wire t => some (0, t)
  | .Action id => some (id, 0)
  | .Battery id t => some (id + 5, t)
  | .Source => none
  | .Sink => none
  | .Network => some (1, 0)
  | .Generator => some (2, 0)

/-- `FlowWrapper`: the engine plus the key → node-id map. -/
structure FlowWrapper where
  inner : MinCostFlow
  node_map : List ((Nat × Nat) × Nat)
deriving Repr

namespace FlowWrapper

/-- `FlowWrapper::new()`. -/
def new : FlowWrapper := ⟨MinCostFlow.new, []⟩

/-- `FlowWrapper::node(key)`: look the key up, allocating a fresh engine
node on a miss. -/
def node (w : FlowWrapper) (key : Nat × Nat) : Nat × FlowWrapper :=
  match w.node_map.lookup key with
  | some id => (id, w)
  | none =>
    let (id, inner1) := w.inner.new_node
    (id, ⟨inner1, w.node_map ++ [(key, id)]⟩)

/-- `IntoNode for FlowNode`: `Source`/`Sink` map to the reserved engine
nodes, everything else goes through `node`. -/
def intoNode (n : FlowNode) (w : FlowWrapper) : Nat × FlowWrapper :=
  match n.key with
  | some k => w.node k
  | none => if n = FlowNode.Source then (w.inner.s, w) else (w.inner.t, w)

/-- `FlowWrapper::add_edge(u, v, cap, cost)` at the logical-node level. -/
def add_edge (w : FlowWrapper) (u v : FlowNode) (cap cost : Int) : Nat × FlowWrapper :=
  let (uid, w1) := intoNode u w
  let (vid, w2) := intoNode v w1
  let (h, inner1) := w2.inner.add_edge uid vid cap cost
  (h, { w2 with inner := inner1 })

/-- `FlowWrapper::mincostflow()`. -/
def mincostflow (F : Nat) (w : FlowWrapper) : Option ((Int × Int) × FlowWrapper) :=
  (w.inner.mincostflow F).map fun p => (p.1, { w with inner := p.2 })

/-- Modelled from the spec: `FlowWrapper::get_flow(handle)` is called by
the blueprints but is absent from the sources in `src/`; §4.C specifies
`flow(handle) → used_capacity` as `original_cap − residual_cap` on the
forward edge after solving.  Under the engine's push discipline (each push
moves `w` from an edge to its XOR-1 partner, proved below) the used
capacity equals the reverse edge's residual, which is how it is modelled
here. -/
def get_flow (w : FlowWrapper) (handle : Nat) : Int :=
  (edAt w.inner.edges (handle ^^^ 1)).f

end FlowWrapper

/-! ### Blueprints, schedule and the smart-home flow (`optimizer/mod.rs`) -/

/-- A sorted-by-key association list standing in for `HashMap`; maps are
compared and iterated extensionally, which models `HashMap`'s unordered
semantics canonically. `insert` replaces an existing binding. -/
def mapInsert {α : Type} : List (Nat × α) → Nat → α → List (Nat × α)
  | [], k, v => [(k, v)]
  | (k', v') :: rest, k, v =>
    if k < k' then (k, v) :: (k', v') :: rest
    else if k = k' then (k, v) :: rest
    else (k', v') :: mapInsert rest k v

/-- `HashMap::remove` (drops the binding, returning the remaining map). -/
def mapRemove {α : Type} : List (Nat × α) → Nat → List (Nat × α)
  | [], _ => []
  | (k', v') :: rest, k => if k = k' then mapRemove rest k else (k', v') :: mapRemove rest k

/-- `HashMap::get`. -/
def mapLookup {α : Type} : List (Nat × α) → Nat → Option α
  | [], _ => none
  | (k', v') :: rest, k => if k = k' then some v' else mapLookup rest k

/-- Well-formedness of the canonical association list: keys strictly
increasing (every map reachable through `mapInsert`/`mapRemove` from the
empty map satisfies it). -/
def mapWF {α : Type} (l : List (Nat × α)) : Prop :=
  l.Pairwise fun p q => p.1 < q.1

/-- `BatteryBlueprint`: the battery and its `Time → edge handle` table. -/
structure BatteryBlueprintE where
  battery : Battery
  relevant_edges : List (Nat × Nat)
deriving Repr

/-- `AssignedBattery`: battery plus its extracted charge-level series. -/
structure AssignedBatteryE where
  battery : Battery
  charge_level : Nat → Int

/-- `BatteryBlueprint::construct`: read each recorded edge's flow, add the
initial level at time 0 (the closure's `expect` on a missing key — a Rust
panic — is modelled as 0; built blueprints cover every queried step). -/
def BatteryBlueprintE.construct (bp : BatteryBlueprintE) (w : FlowWrapper) : AssignedBatteryE :=
  { battery := bp.battery
    charge_level := fun t =>
      if t = 0 then bp.battery.initial_level
      else match mapLookup bp.relevant_edges t with
        | some h => w.get_flow h
        | none => 0 }

/-- `VariableActionBlueprint`. -/
structure VariableActionBlueprintE where
  variable_action : VariableAction
  relevant_edges : List (Nat × Nat)
deriving Repr

/-- `AssignedVariableAction`: the action and its per-window-step
consumption list. -/
structure AssignedVariableActionE where
  action : VariableAction
  consumption : List Int
deriving Repr

/-- `VariableActionBlueprint::construct` (missing-key `expect` modelled
as 0, unreachable on built blueprints). -/
def VariableActionBlueprintE.construct (bp : VariableActionBlueprintE) (w : FlowWrapper) :
    AssignedVariableActionE :=
  { action := bp.variable_action
    consumption :=
      (List.range' bp.variable_action.start
        (bp.variable_action.stop - bp.variable_action.start)).map fun t =>
          match mapLookup bp.relevant_edges t with
          | some h => w.get_flow h
          | none => 0 }

/-- `NetworkConsumptionBlueprint::construct` as a per-timestep series. -/
def networkConstruct (relevant_edges : List (Nat × Nat)) (w : FlowWrapper) : Nat → Int :=
  fun t =>
    match mapLookup relevant_edges t with
    | some h => w.get_flow h
    | none => 0

/-- `SmartHomeBlueprint`: the three blueprint flavours. -/
structure SmartHomeBlueprint where
  battery_blueprints : List BatteryBlueprintE
  variable_action_blueprints : List VariableActionBlueprintE
  network_consumption_blueprint : List (Nat × Nat)
deriving Repr

/-- `Schedule` (`schedule.rs`): the four output maps. -/
structure Schedule where
  constant_actions : List AssignedConstantAction
  variable_actions : List (Nat × AssignedVariableActionE)
  batteries : List (Nat × AssignedBatteryE)
  network_consumption : Nat → Int

/-- `SmartHomeBlueprint::construct`. -/
def SmartHomeBlueprint.construct (bp : SmartHomeBlueprint) (w : FlowWrapper) : Schedule :=
  { constant_actions := []
    variable_actions := bp.variable_action_blueprints.map fun b =>
      (b.variable_action.id, b.construct w)
    batteries := bp.battery_blueprints.map fun b => (b.battery.id, b.construct w)
    network_consumption := networkConstruct bp.network_consumption_blueprint w }

/-- `SmartHomeFlow` (`optimizer/mod.rs`): the snapshot stack over the
wrapper, the assigned-constant-load map, the cached cost and the
blueprint table. -/
structure SmartHomeFlow where
  flow : StackProxy FlowWrapper
  constant_actions : List (Nat × AssignedConstantAction)
  calc_result : Option Int
  blueprint : SmartHomeBlueprint

namespace SmartHomeFlow

/-- `SmartHomeFlow::new`: wrap the built graph in a stack and push once
(depth 2: baseline below, working overlay on top). -/
def new (fw : FlowWrapper) (bp : SmartHomeBlueprint) : SmartHomeFlow :=
  { flow := (StackProxy.new fw).push
    constant_actions := []
    calc_result := none
    blueprint := bp }

/-- `SmartHomeFlow::add_constant_consumption`: store in the map and drop
the cache; no graph mutation. -/
def add_constant_consumption (s : SmartHomeFlow) (ca : AssignedConstantAction) : SmartHomeFlow :=
  { s with
    constant_actions := mapInsert s.constant_actions ca.get_id ca,
    calc_result := none }

/-- `SmartHomeFlow::remove_constant_consumption`: drop the cache and
remove from the map, returning the removed assignment. -/
def remove_constant_consumption (s : SmartHomeFlow) (id : Nat) :
    Option AssignedConstantAction × SmartHomeFlow :=
  (mapLookup s.constant_actions id,
    { s with
      constant_actions := mapRemove s.constant_actions id,
      calc_result := none })

/-- The edge-adding loop of `calc_flow`: for every assigned constant load
and every step `t` of its active interval `[start_time, end_time)`, add
`Wire(t) → Sink` with capacity `consumption` and cost 1. -/
def addConstantEdges (w : FlowWrapper) (cas : List (Nat × AssignedConstantAction)) : FlowWrapper :=
  cas.foldl
    (fun w pair =>
      (List.range' pair.2.start_time (pair.2.get_end_time - pair.2.start_time)).foldl
        (fun w t =>
          (w.add_edge (FlowNode.Wire t) FlowNode.Sink pair.2.action.consumption 1).2)
        w)
    w

/-- `SmartHomeFlow::calc_flow`: pop the overlay, push a fresh copy of the
baseline, add the constant-load edges, solve, and cache the cost (the
solver's flow value is printed and discarded by the source). -/
def calc_flow (F : Nat) (s : SmartHomeFlow) : Option SmartHomeFlow :=
  match s.flow.pop with
  | none => none
  | some popped =>
    let pushed := popped.push
    match pushed.top? with
    | none => none
    | some w =>
      let w1 := addConstantEdges w s.constant_actions
      match w1.mincostflow F with
      | none => none
      | some (r, w2) =>
        some { s with flow := pushed.setTop w2, calc_result := some r.1 }

/-- `SmartHomeFlow::get_cost`: recompute only when the cache is empty,
then unwrap the cached value. -/
def get_cost (F : Nat) (s : SmartHomeFlow) : Option (Int × SmartHomeFlow) :=
  match s.calc_result with
  | some c => some (c, s)
  | none =>
    match calc_flow F s with
    | none => none
    | some s1 =>
      match s1.calc_result with
      | some c => some (c, s1)
      | none => none

/-- `SmartHomeFlow::get_schedule`: recompute only when the cache is empty,
then extract the schedule through the blueprints from the top state. -/
def get_schedule (F : Nat) (s : SmartHomeFlow) : Option (Schedule × SmartHomeFlow) :=
  match s.calc_result with
  | some _ =>
    match s.flow.top? with
    | some w => some (s.blueprint.construct w, s)
    | none => none
  | none =>
    match calc_flow F s with
    | none => none
    | some s1 =>
      match s1.flow.top? with
      | some w => some (s1.blueprint.construct w, s1)
      | none => none

end SmartHomeFlow

/-! ### Annealing state and moves (`simulated_annealing/`) -/

/-- `State` (`simulated_annealing/state.rs`): the constant-action map, the
id list used for random sampling, and the smart-home flow. -/
structure AnnealState where
  constant_actions : List (Nat × AssignedConstantAction)
  constant_action_ids : List Nat
  smart_home_flow : SmartHomeFlow

namespace AnnealState

/-- `State::add_constant_action`: forward to the flow, then store in the
state's own map. -/
def add_constant_action (st : AnnealState) (a : AssignedConstantAction) : AnnealState :=
  { st with
    smart_home_flow := st.smart_home_flow.add_constant_consumption a,
    constant_actions := mapInsert st.constant_actions a.get_id a }

/-- `State::remove_constant_action`: remove from the state's map and from
the flow, returning the flow's removed assignment. -/
def remove_constant_action (st : AnnealState) (id : Nat) :
    Option AssignedConstantAction × AnnealState :=
  let (res, shf) := st.smart_home_flow.remove_constant_consumption id
  (res,
    { st with
      constant_actions := mapRemove st.constant_actions id,
      smart_home_flow := shf })

/-- `State::get_cost`: delegate to the flow. -/
def get_cost (F : Nat) (st : AnnealState) : Option (Int × AnnealState) :=
  match st.smart_home_flow.get_cost F with
  | none => none
  | some (c, shf) => some (c, { st with smart_home_flow := shf })

end AnnealState

/-- `RandomMoveChange` (`change/random_move.rs`): move `action_id` from
`old_time` to `new_time`. -/
structure RandomMoveChange where
  action_id : Nat
  old_time : Nat
  new_time : Nat
deriving DecidableEq, Repr

namespace RandomMoveChange

/-- `Change::apply`: remove the action (`unwrap`, `none` on a missing id),
re-assign its underlying constant action at `new_time` (the constructor's
bounds assert may panic), and add it back. -/
def apply (c : RandomMoveChange) (st : AnnealState) : Option AnnealState :=
  let (old?, st1) := st.remove_constant_action c.action_id
  match old? with
  | none => none
  | some oldA =>
    match oldA.action.with_start_time c.new_time with
    | none => none
    | some newA => some (st1.add_constant_action newA)

/-- `Change::undo`: remove the moved action and restore it at `old_time`. -/
def undo (c : RandomMoveChange) (st : AnnealState) : Option AnnealState :=
  let (new?, st1) := st.remove_constant_action c.action_id
  match new? with
  | none => none
  | some newA =>
    match newA.action.with_start_time c.old_time with
    | none => none
    | some oldA => some (st1.add_constant_action oldA)

end RandomMoveChange

/-- The Metropolis acceptance test of `run_simulated_annealing`
(`simulated_annealing/mod.rs`): a move is kept iff `cost_diff < 0`, or
`cost_diff >= 0` and the uniform draw from `[0, 1)` is strictly below
`exp(-cost_diff / temperature)`; otherwise `change.undo` runs.  The `f64`
arithmetic is modelled over the reals (the integer cost difference is
coerced, as in the source's `-cost_diff as f64`). -/
def annealAccepts (costDiff : Int) (temperature draw : ℝ) : Prop :=
  costDiff < 0 ∨ (¬ costDiff < 0 ∧ draw < Real.exp (-(costDiff : ℝ) / temperature))

/-! ### The time-expanded graph builder (`optimizer/mod.rs`,
`electricity_price_optimizer` variant with `first_timestep_fraction`)

The builder's only interactions with the flow are `add_edge` calls with
logical `FlowNode` endpoints, so it is embedded as the sequence (trace) of
those calls, each recording its returned handle (`2 × the number of prior
calls`, proved below); the wrapper state is recovered by folding the trace
(`lowerCalls`).  The source iterates `0..STEPS_PER_DAY` with the constant
baked in; the embedding takes the bound `steps` as an explicit parameter
(`STEPS_PER_DAY` in the program) so that small instances stay executable
by the kernel. -/

/-- One recorded `flow.add_edge(u, v, cap, cost)` call. -/
structure TCall where
  u : FlowNode
  v : FlowNode
  cap : Int
  cost : Int
deriving DecidableEq, Repr

/-- The handle `flow.add_edge` returns for the next recorded call: every
call appends a forward/reverse pair to the engine, so the handle is twice
the number of prior calls. -/
def traceHandle (calls : List TCall) : Nat := 2 * calls.length

/-- The trace-level builder state: recorded calls, the three blueprint
tables and the scaling fraction. -/
structure SmartHomeFlowBuilderE where
  steps : Nat
  calls : List TCall
  network_bp : List (Nat × Nat)
  battery_bps : List (Battery × List (Nat × Nat))
  variable_bps : List (VariableAction × List (Nat × Nat))
  first_timestep_fraction : ℚ
deriving Repr

namespace SmartHomeFlowBuilderE

/-- Append one `add_edge` call, returning its handle. -/
def addCall (b : SmartHomeFlowBuilderE) (c : TCall) : Nat × SmartHomeFlowBuilderE :=
  (traceHandle b.calls, { b with calls := b.calls ++ [c] })

/-- The per-timestep body of `SmartHomeFlowBuilder::new`'s loop:
a `Generator → Wire(t)` edge when generation is positive, the
`Network → Wire(t)` edge (handle recorded in the network blueprint), and
a `Wire(t) → Sink` edge when uncontrolled consumption is positive. -/
def newStep (generate price consume : Nat → Int) (b : SmartHomeFlowBuilderE) (i : Nat) :
    SmartHomeFlowBuilderE :=
  let b1 :=
    if 0 < generate i then
      (b.addCall ⟨FlowNode.Generator, FlowNode.Wire i, generate i, 0⟩).2
    else b
  let (h, b2) := b1.addCall ⟨FlowNode.Network, FlowNode.Wire i, I64_MAX, price i⟩
  let b3 := { b2 with network_bp := mapInsert b2.network_bp i h }
  if 0 < consume i then
    (b3.addCall ⟨FlowNode.Wire i, FlowNode.Sink, consume i, 0⟩).2
  else b3

/-- `SmartHomeFlowBuilder::new`: the two source edges followed by the
per-timestep loop. -/
def new (steps : Nat) (generate price consume : Nat → Int) (frac : ℚ) :
    SmartHomeFlowBuilderE :=
  let b0 : SmartHomeFlowBuilderE :=
    { steps := steps, calls := [], network_bp := [], battery_bps := [],
      variable_bps := [], first_timestep_fraction := frac }
  let b1 := (b0.addCall ⟨FlowNode.Source, FlowNode.Generator, I64_MAX, 0⟩).2
  let b2 := (b1.addCall ⟨FlowNode.Source, FlowNode.Network, I64_MAX, 0⟩).2
  (List.range steps).foldl (newStep generate price consume) b2

/-- The charge-rate capacity of step `t`: scaled by the fraction (with
`f32::round`) exactly when `t = 0`. -/
def scaledCap (frac : ℚ) (cap : Int) (t : Nat) : Int :=
  if t = 0 then rustRound ((cap : ℚ) * frac) else cap

/-- The charge/discharge edges of one timestep in `add_battery`. -/
def batteryStep (bat : Battery) (b : SmartHomeFlowBuilderE) (t : Nat) :
    SmartHomeFlowBuilderE :=
  let b1 := (b.addCall ⟨FlowNode.Wire t, FlowNode.Battery bat.id t,
    scaledCap b.first_timestep_fraction bat.maximum_charge_rate t, 0⟩).2
  (b1.addCall ⟨FlowNode.Battery bat.id t, FlowNode.Wire t,
    scaledCap b1.first_timestep_fraction bat.maximum_output_rate t, 0⟩).2

/-- One persistence edge `Battery(b, t) → Battery(b, t+1)` of
`add_battery`, with its handle recorded under `t + 1`. -/
def batteryPersistStep (bat : Battery) (bs : SmartHomeFlowBuilderE × List (Nat × Nat))
    (t : Nat) : SmartHomeFlowBuilderE × List (Nat × Nat) :=
  let (h, b1) := bs.1.addCall
    ⟨FlowNode.Battery bat.id t, FlowNode.Battery bat.id (t + 1), bat.capacity, 0⟩
  (b1, mapInsert bs.2 (t + 1) h)

/-- `SmartHomeFlowBuilder::add_battery`. -/
def add_battery (b : SmartHomeFlowBuilderE) (bat : Battery) : SmartHomeFlowBuilderE :=
  let b1 := (b.addCall
    ⟨FlowNode.Source, FlowNode.Battery bat.id 0, bat.initial_level, 0⟩).2
  let b2 := (List.range b1.steps).foldl (batteryStep bat) b1
  let (b3, bp) := (List.range b2.steps).foldl (batteryPersistStep bat) (b2, [])
  { b3 with battery_bps := b3.battery_bps ++ [(bat, bp)] }

/-- One `Wire(t) → Action(a)` edge of `add_action`, scaled when `t` is
timestep 0 of the day, with its handle recorded under `t`. -/
def actionStep (a : VariableAction) (bs : SmartHomeFlowBuilderE × List (Nat × Nat))
    (t : Nat) : SmartHomeFlowBuilderE × List (Nat × Nat) :=
  let (h, b1) := bs.1.addCall ⟨FlowNode.Wire t, FlowNode.Action a.id,
    scaledCap bs.1.first_timestep_fraction a.max_consumption t, 0⟩
  (b1, mapInsert bs.2 t h)

/-- `SmartHomeFlowBuilder::add_action`: the window's wire edges followed
by the `Action(a) → Sink` total-consumption edge. -/
def add_action (b : SmartHomeFlowBuilderE) (a : VariableAction) : SmartHomeFlowBuilderE :=
  let (b1, bp) := (List.range' a.start (a.stop - a.start)).foldl (actionStep a) (b, [])
  let b2 := (b1.addCall ⟨FlowNode.Action a.id, FlowNode.Sink, a.total_consumption, 0⟩).2
  { b2 with variable_bps := b2.variable_bps ++ [(a, bp)] }

/-- Fold a recorded call trace into the actual wrapper state. -/
def lowerCalls (calls : List TCall) : FlowWrapper :=
  calls.foldl (fun w c => (w.add_edge c.u c.v c.cap c.cost).2) FlowWrapper.new

/-- Assemble the recorded blueprint tables. -/
def blueprint (b : SmartHomeFlowBuilderE) : SmartHomeBlueprint :=
  { battery_blueprints := b.battery_bps.map fun p => ⟨p.1, p.2⟩
    variable_action_blueprints := b.variable_bps.map fun p => ⟨p.1, p.2⟩
    network_consumption_blueprint := b.network_bp }

/-- `SmartHomeFlowBuilder::build`. -/
def build (b : SmartHomeFlowBuilderE) : SmartHomeFlow :=
  SmartHomeFlow.new (lowerCalls b.calls) b.blueprint

end SmartHomeFlowBuilderE

/-! ### Derived predicates and concrete instances used by the theorems -/

/-- `calculate_total_flow` (`optimizer/mcmf/helpers.rs`): the flow the
context mandates — the variable loads' totals plus the uncontrolled
consumption summed over the day. -/
def calculate_total_flow (actions : List VariableAction) (consume : Nat → Int)
    (steps : Nat) : Int :=
  (actions.map fun a => a.total_consumption).sum +
    ((List.range steps).map consume).sum

/-- The calls the body of `SmartHomeFlowBuilder::new`'s loop records for
one timestep: the guarded generation edge, the network edge, and the
guarded uncontrolled-consumption edge. -/
def stepCalls (generate price consume : Nat → Int) (i : Nat) : List TCall :=
  (if 0 < generate i then [⟨FlowNode.Generator, FlowNode.Wire i, generate i, 0⟩] else []) ++
    (⟨FlowNode.Network, FlowNode.Wire i, I64_MAX, price i⟩ ::
      (if 0 < consume i then [⟨FlowNode.Wire i, FlowNode.Sink, consume i, 0⟩] else []))

/-- The handle the builder records for step `t`'s network edge: twice the
number of calls made before it (the two source edges, the full bodies of
the earlier steps, and step `t`'s own guarded generation edge). -/
def networkHandle (generate price consume : Nat → Int) (t : Nat) : Nat :=
  2 * (2 + ((List.range t).map fun i => (stepCalls generate price consume i).length).sum +
    if 0 < generate t then 1 else 0)

/-- The calls `SmartHomeFlowBuilder::add_battery` appends: the
initial-level edge, per-step charge/discharge pairs (step 0 scaled by the
fraction), and the per-step persistence edges. -/
def batteryCalls (f : ℚ) (bat : Battery) (steps : Nat) : List TCall :=
  ⟨FlowNode.Source, FlowNode.Battery bat.id 0, bat.initial_level, 0⟩ ::
    (((List.range steps).flatMap fun t =>
      [⟨FlowNode.Wire t, FlowNode.Battery bat.id t,
          SmartHomeFlowBuilderE.scaledCap f bat.maximum_charge_rate t, 0⟩,
        ⟨FlowNode.Battery bat.id t, FlowNode.Wire t,
          SmartHomeFlowBuilderE.scaledCap f bat.maximum_output_rate t, 0⟩]) ++
      ((List.range steps).map fun t =>
        ⟨FlowNode.Battery bat.id t, FlowNode.Battery bat.id (t + 1), bat.capacity, 0⟩))

/-- The calls `SmartHomeFlowBuilder::add_action` appends: one capacity
edge per step of the window (timestep 0 scaled by the fraction) and the
total-consumption edge into the sink. -/
def actionCalls (f : ℚ) (a : VariableAction) : List TCall :=
  ((List.range' a.start (a.stop - a.start)).map fun t =>
    ⟨FlowNode.Wire t, FlowNode.Action a.id,
      SmartHomeFlowBuilderE.scaledCap f a.max_consumption t, 0⟩) ++
    [⟨FlowNode.Action a.id, FlowNode.Sink, a.total_consumption, 0⟩]

/-- A concrete battery used by the scaling witness. -/
def exBattery : Battery :=
  { capacity := 20, initial_level := 5, maximum_charge_rate := 7,
    maximum_output_rate := 3, efficiency := 1, id := 2 }

/-- The overlay `calc_flow` produces from a baseline and a constant-action
map: a fresh copy of the baseline with the map's edges added, solved. -/
def solvedOverlay (F : Nat) (base : FlowWrapper)
    (cas : List (Nat × AssignedConstantAction)) : Option FlowWrapper :=
  ((SmartHomeFlow.addConstantEdges base cas).mincostflow F).map Prod.snd

/-- The smart-home flow's overlay exactly reflects its constant-action
map: the stack is the baseline plus one overlay, and that overlay is the
solved fresh copy of the baseline extended with exactly the map's edges. -/
def overlayReflects (F : Nat) (s : SmartHomeFlow) : Prop :=
  ∃ base top, s.flow.stack = [base, top] ∧
    solvedOverlay F base s.constant_actions = some top

/-- The cost `calc_flow` computes from a baseline and a constant-action
map (the cached value is this, whenever the cache is filled). -/
def costOf (F : Nat) (base : FlowWrapper)
    (cas : List (Nat × AssignedConstantAction)) : Option Int :=
  ((SmartHomeFlow.addConstantEdges base cas).mincostflow F).map fun p => p.1.1

/-- The smart-home flow's cache is consistent: whatever is cached is the
cost determined by the baseline and the current map. -/
def cacheConsistent (F : Nat) (s : SmartHomeFlow) : Prop :=
  ∀ c, s.calc_result = some c →
    ∃ base, s.flow.bottom? = some base ∧ costOf F base s.constant_actions = some c

/-- A four-node graph with a negative-cost cycle `2 → 3 → 2` reachable
from the source and a fully disconnected sink. -/
def exNegCycleG : MinCostFlow :=
  let g := MinCostFlow.new
  let g := g.new_node.2
  let g := g.new_node.2
  let g := (g.add_edge 0 2 5 0).2
  let g := (g.add_edge 2 3 1 (-1)).2
  (g.add_edge 3 2 1 (-1)).2

/-- The engine state `mincostflow` (fuel 100) computes for
`exNegCycleG`: the negative cycle has been cancelled (`mincost = -2`)
while no flow reached the sink (`maxflow = 0`). -/
def exNegCycleSolvedG : MinCostFlow :=
  { n := 4,
    edges := [⟨2, 5, 0⟩, ⟨0, 0, 0⟩, ⟨3, 0, -1⟩, ⟨2, 1, 1⟩, ⟨2, 0, -1⟩, ⟨3, 1, 1⟩],
    adj := [[0], [], [1, 2, 5], [3, 4]],
    pref := [0, USIZE_MAX, 0, 2],
    con := [0, 0, 0, 5],
    dist := [0, INF, 0, 1],
    pi := [0, 0, 0, 0],
    s := 0, t := 1, maxflow := 0, mincost := -2 }

/-- An eleven-node graph whose sink (node 1) is residually unreachable
from the source, on which `min_cost_flow` nevertheless delivers nonzero
flow.  Nodes: `a = 2`, `b = 3` carry a capacity-1 negative cycle fed from
the source; `c = 4` is relaxed once per cycle pump through `a → c` and
eight times in one scan through the parallel `u → c` edges of steeply
decreasing cost, so the relaxation counter of `c` reaches `n` exactly
while its predecessor is `u = 10`, the end of the chain
`s → d1 … d4 → u` (`d1..d4 = 6..9`).  The cycle-cancellation walk
`pref^[n]` from `c` then runs through the chain onto the source — a
`pref` fixpoint — and cancels through the stale `con[s] = 0` entry, i.e.
the real edge `0` (`u0 → s` with `u0 = 5`), moving its residual onto the
reverse edge `s → u0`.  That opens the previously unreachable region
`{u0, t}`: after the genuine cycle is cancelled on the next round (the
`u0 → d4` shortcut shifts the timing so `u` fires too early for a second
misdetection), the SPFA finds `s → u0 → t` and pushes flow 5 to the
sink. -/
def exGarbageG : MinCostFlow :=
  let g := MinCostFlow.new
  let g := g.new_node.2
  let g := g.new_node.2
  let g := g.new_node.2
  let g := g.new_node.2
  let g := g.new_node.2
  let g := g.new_node.2
  let g := g.new_node.2
  let g := g.new_node.2
  let g := g.new_node.2
  let g := (g.add_edge 5 0 5 0).2
  let g := (g.add_edge 0 2 10 0).2
  let g := (g.add_edge 2 3 1 (-1)).2
  let g := (g.add_edge 3 2 1 (-1)).2
  let g := (g.add_edge 2 4 10 0).2
  let g := (g.add_edge 0 6 10 0).2
  let g := (g.add_edge 6 7 10 0).2
  let g := (g.add_edge 7 8 10 0).2
  let g := (g.add_edge 8 9 10 0).2
  let g := (g.add_edge 9 10 10 0).2
  let g := (g.add_edge 10 4 10 (-100)).2
  let g := (g.add_edge 10 4 10 (-200)).2
  let g := (g.add_edge 10 4 10 (-300)).2
  let g := (g.add_edge 10 4 10 (-400)).2
  let g := (g.add_edge 10 4 10 (-500)).2
  let g := (g.add_edge 10 4 10 (-600)).2
  let g := (g.add_edge 10 4 10 (-700)).2
  let g := (g.add_edge 10 4 10 (-800)).2
  let g := (g.add_edge 5 1 7 0).2
  (g.add_edge 5 9 10 (-1)).2

/-- An over-constrained context: a two-step day at price 10 with one
variable load demanding a total of 10 inside the window `[1, 2)` at a
per-step cap of 1 — the graph can carry at most 1 unit, so `max_flow = 1`
falls short of the mandated total of 10 (spec scenario (e), scaled to an
executable grid). -/
def exInfVarAction : VariableAction :=
  { start := 1, stop := 2, total_consumption := 10, max_consumption := 1, id := 7 }

/-- The builder output for the over-constrained context. -/
def exInfBuilder : SmartHomeFlowBuilderE :=
  (SmartHomeFlowBuilderE.new 2 (fun _ => 0) (fun _ => 10) (fun _ => 0) 1).add_action
    exInfVarAction

/-- The smart-home flow for the over-constrained context. -/
def exInfFlow : SmartHomeFlow := exInfBuilder.build

/-- A tiny smart-home flow state with a filled cache, used to exercise
the cached-return path on a concrete input. -/
def exCachedFlow : SmartHomeFlow :=
  { flow := ⟨[FlowWrapper.new, FlowWrapper.new]⟩,
    constant_actions := [],
    calc_result := some 7,
    blueprint := ⟨[], [], []⟩ }

/-- A concrete constant action used by the undo-correctness witness. -/
def exConstAction : ConstantAction :=
  { start_from := 0, end_before := 10, duration := 2, consumption := 3, id := 1 }

/-- The concrete assignment of `exConstAction` at its earliest start. -/
def exAssigned : AssignedConstantAction := ⟨exConstAction, 0⟩

/-- A concrete annealing state holding `exAssigned`. -/
def exAnnealSt : AnnealState :=
  { constant_actions := [(1, exAssigned)],
    constant_action_ids := [1],
    smart_home_flow :=
      { flow := ⟨[FlowWrapper.new, FlowWrapper.new]⟩,
        constant_actions := [(1, exAssigned)],
        calc_result := none,
        blueprint := ⟨[], [], []⟩ } }

/-- A concrete random move of `exConstAction` from start 0 to start 4. -/
def exMove : RandomMoveChange := { action_id := 1, old_time := 0, new_time := 4 }

/-! ## Lemmas: XOR pairing and the conservation invariant -/

theorem xor_one_of_even (m : Nat) : (2 * m) ^^^ 1 = 2 * m + 1 := by
  have h := Nat.xor_bit false m true 0
  simpa [Nat.bit] using h

theorem xor_one_of_odd (m : Nat) : (2 * m + 1) ^^^ 1 = 2 * m := by
  have h := Nat.xor_bit true m true 0
  simpa [Nat.bit] using h

theorem xor_one_xor_one (x : Nat) : x ^^^ 1 ^^^ 1 = x := by
  rw [Nat.xor_assoc, Nat.xor_self, Nat.xor_zero]

theorem xor_one_ne (x : Nat) : x ^^^ 1 ≠ x := by
  intro h
  have h2 : x ^^^ (x ^^^ 1) = x ^^^ x := congrArg (x ^^^ ·) h
  rw [Nat.xor_cancel_left, Nat.xor_self] at h2
  exact one_ne_zero h2

theorem lt_iff_xor_one_lt_of_even {len j : Nat} (h : len % 2 = 0) :
    j < len ↔ j ^^^ 1 < len := by
  rcases Nat.even_or_odd j with ⟨m, hm⟩ | ⟨m, hm⟩
  · subst hm
    rw [show m + m = 2 * m by ring, xor_one_of_even]
    omega
  · subst hm
    rw [show 2 * m + 1 ^^^ 1 = 2 * m from xor_one_of_odd m]
    omega

theorem edAt_modify_sub (l : List Edge) (id j : Nat) (w : Int) :
    edAt (l.modify (fun e => { e with f := e.f - w }) id) j =
      if id = j ∧ j < l.length then
        { edAt l j with f := (edAt l j).f - w }
      else edAt l j := by
  unfold edAt
  rw [List.getD_eq_getElem?_getD, List.getD_eq_getElem?_getD, List.getElem?_modify]
  by_cases hij : id = j
  · subst hij
    by_cases hlt : id < l.length
    · simp [hlt, List.getElem?_eq_getElem hlt]
    · have hnone : l[id]? = none := List.getElem?_eq_none (by omega)
      simp [hlt, hnone]
  · simp [hij]

theorem edAt_modify_add (l : List Edge) (id j : Nat) (w : Int) :
    edAt (l.modify (fun e => { e with f := e.f + w }) id) j =
      if id = j ∧ j < l.length then
        { edAt l j with f := (edAt l j).f + w }
      else edAt l j := by
  unfold edAt
  rw [List.getD_eq_getElem?_getD, List.getD_eq_getElem?_getD, List.getElem?_modify]
  by_cases hij : id = j
  · subst hij
    by_cases hlt : id < l.length
    · simp [hlt, List.getElem?_eq_getElem hlt]
    · have hnone : l[id]? = none := List.getElem?_eq_none (by omega)
      simp [hlt, hnone]
  · simp [hij]

theorem length_edgesPush (l : List Edge) (id : Nat) (w : Int) :
    (MinCostFlow.edgesPush l id w).length = l.length := by
  unfold MinCostFlow.edgesPush
  rw [List.length_modify, List.length_modify]

theorem edAt_edgesPush (l : List Edge) (id : Nat) (w : Int) (j : Nat) :
    edAt (MinCostFlow.edgesPush l id w) j =
      { edAt l j with
        f := (edAt l j).f + (if id = j ∧ j < l.length then -w else 0) +
          (if id ^^^ 1 = j ∧ j < l.length then w else 0) } := by
  unfold MinCostFlow.edgesPush
  have hlen : (l.modify (fun e => { e with f := e.f - w }) id).length = l.length :=
    List.length_modify ..
  rw [edAt_modify_add, hlen, edAt_modify_sub]
  rcases Nat.lt_or_ge j l.length with hj | hj
  · by_cases e1 : id = j
    · by_cases e2 : id ^^^ 1 = j
      · exact absurd (by rw [e1] at e2; exact e2) (xor_one_ne j)
      · subst e1
        simp [hj, e2, xor_one_ne, sub_eq_add_neg]
    · by_cases e2 : id ^^^ 1 = j
      · subst e2
        simp [hj, e1, xor_one_ne]
      · simp [hj, e1, e2]
  · have hnj : ¬(j < l.length) := Nat.not_lt.mpr hj
    simp [hnj]

theorem conserves_refl (l : List Edge) : conserves l l :=
  ⟨⟨rfl, fun _ => ⟨rfl, rfl⟩⟩, fun _ => rfl⟩

theorem conserves_trans {a b c : List Edge} (h1 : conserves a b) (h2 : conserves b c) :
    conserves a c := by
  obtain ⟨⟨hl1, hs1⟩, hp1⟩ := h1
  obtain ⟨⟨hl2, hs2⟩, hp2⟩ := h2
  refine ⟨⟨hl2.trans hl1, fun id => ?_⟩, fun id => ?_⟩
  · exact ⟨(hs2 id).1.trans (hs1 id).1, (hs2 id).2.trans (hs1 id).2⟩
  · exact (hp2 id).trans (hp1 id)

theorem conserves_edgesPush {l : List Edge} (hev : l.length % 2 = 0)
    (id : Nat) (w : Int) : conserves l (MinCostFlow.edgesPush l id w) := by
  refine ⟨⟨length_edgesPush .., fun j => ?_⟩, fun j => ?_⟩
  · rw [edAt_edgesPush]
    exact ⟨rfl, rfl⟩
  · rw [edAt_edgesPush, edAt_edgesPush]
    have hrange : ∀ x : Nat, x < l.length ↔ x ^^^ 1 < l.length := fun x =>
      lt_iff_xor_one_lt_of_even hev
    have hiff1 : (id = j ^^^ 1 ∧ j ^^^ 1 < l.length) ↔ (id ^^^ 1 = j ∧ j < l.length) := by
      constructor
      · rintro ⟨rfl, h⟩
        exact ⟨xor_one_xor_one j, (hrange j).mpr h⟩
      · rintro ⟨h, hj⟩
        subst h
        refine ⟨(xor_one_xor_one id).symm, ?_⟩
        rw [xor_one_xor_one]
        exact (hrange id).mpr hj
    have hiff2 : (id ^^^ 1 = j ^^^ 1 ∧ j ^^^ 1 < l.length) ↔ (id = j ∧ j < l.length) := by
      constructor
      · rintro ⟨h, hj⟩
        have hid : id = j := by
          have := congrArg (fun x => x ^^^ 1) h
          simpa [xor_one_xor_one] using this
        exact ⟨hid, (hrange j).mpr hj⟩
      · rintro ⟨rfl, hj⟩
        exact ⟨rfl, (hrange id).mp hj⟩
    rw [if_congr hiff1 rfl rfl, if_congr hiff2 rfl rfl]
    by_cases hA : id = j ∧ j < l.length
    · have hBfalse : ¬(id ^^^ 1 = j ∧ j < l.length) := by
        rintro ⟨hb, _⟩
        exact xor_one_ne id (hb.trans hA.1.symm)
      simp [hA, hBfalse, hA.1, hA.2, xor_one_ne]
      ring
    · by_cases hB : id ^^^ 1 = j ∧ j < l.length
      · have hAne : id ≠ j := fun h => hA ⟨h, hB.2⟩
        simp [hB, hAne, hB.1, hB.2, xor_one_ne]
        ring
      · simp [hA, hB]

theorem conserves_length_even {a b : List Edge} (h : conserves a b)
    (hev : a.length % 2 = 0) : b.length % 2 = 0 := by
  rw [h.1.1]
  exact hev

theorem conserves_foldl_edgesPush (w : Int) :
    ∀ (ids : List Nat) (l : List Edge), l.length % 2 = 0 →
      conserves l (ids.foldl (fun acc id => MinCostFlow.edgesPush acc id w) l) := by
  intro ids
  induction ids with
  | nil => intro l _; exact conserves_refl l
  | cons id rest ih =>
    intro l hev
    have h1 : conserves l (MinCostFlow.edgesPush l id w) := conserves_edgesPush hev id w
    have hev1 : (MinCostFlow.edgesPush l id w).length % 2 = 0 :=
      conserves_length_even h1 hev
    exact conserves_trans h1 (ih _ hev1)

theorem noEdgeInto_of_conserves {a b : List Edge} {v : Nat}
    (h : conserves a b) (hno : noEdgeInto v a) : noEdgeInto v b := by
  intro e he
  obtain ⟨i, hi, rfl⟩ := List.mem_iff_getElem.mp he
  have hia : i < a.length := by rw [← h.1.1]; exact hi
  have hdst : (edAt b i).dst = (edAt a i).dst := (h.1.2 i).1
  have hb : edAt b i = b[i] := List.getD_eq_getElem b default hi
  have ha : edAt a i = a[i] := List.getD_eq_getElem a default hia
  rw [hb, ha] at hdst
  rw [hdst]
  exact hno _ (List.getElem_mem hia)

theorem getD_set_ne {α : Type} (l : List α) (i j : Nat) (a d : α) (h : i ≠ j) :
    (l.set i a).getD j d = l.getD j d := by
  rw [List.getD_eq_getElem?_getD, List.getD_eq_getElem?_getD, List.getElem?_set_ne h]

theorem getD_replicate {α : Type} (n j : Nat) (a : α) :
    (List.replicate n a).getD j a = a := by
  rw [List.getD_eq_getElem?_getD, List.getElem?_replicate]
  split <;> rfl

theorem edge_mem_of_f_pos (g : MinCostFlow) (id : Nat) (h : 0 < (g.edgeAt id).f) :
    g.edgeAt id ∈ g.edges := by
  unfold MinCostFlow.edgeAt at h ⊢
  by_cases hlt : id < g.edges.length
  · rw [List.getD_eq_getElem _ _ hlt]
    exact List.getElem_mem hlt
  · rw [List.getD_eq_getElem?_getD, List.getElem?_eq_none (by omega)] at h
    have hz : ((none : Option Edge).getD default).f = 0 := rfl
    rw [hz] at h
    exact absurd h (lt_irrefl 0)

theorem foldl_pushFlow_eq (w : Int) : ∀ (ids : List Nat) (g : MinCostFlow),
    ids.foldl (fun h id => h.pushFlow id w) g =
      { g with edges := ids.foldl (fun acc id => MinCostFlow.edgesPush acc id w) g.edges } := by
  intro ids
  induction ids with
  | nil => intro g; rfl
  | cons id rest ih =>
    intro g
    rw [List.foldl_cons, List.foldl_cons, ih]
    rfl

theorem cancel_conserves (g : MinCostFlow) (start : Nat)
    (hev : g.edges.length % 2 = 0) :
    conserves g.edges (g.cancelNegativeCycle start).edges := by
  unfold MinCostFlow.cancelNegativeCycle
  simp only [foldl_pushFlow_eq]
  exact conserves_foldl_edgesPush _ _ _ hev

theorem cancel_fields (g : MinCostFlow) (start : Nat) :
    (g.cancelNegativeCycle start).adj = g.adj ∧
    (g.cancelNegativeCycle start).s = g.s ∧
    (g.cancelNegativeCycle start).t = g.t ∧
    (g.cancelNegativeCycle start).maxflow = g.maxflow ∧
    (g.cancelNegativeCycle start).pref = g.pref ∧
    (g.cancelNegativeCycle start).con = g.con ∧
    (g.cancelNegativeCycle start).dist = g.dist ∧
    (g.cancelNegativeCycle start).pi = g.pi := by
  unfold MinCostFlow.cancelNegativeCycle
  simp [foldl_pushFlow_eq]

theorem spfaInitG_fields (g : MinCostFlow) :
    (MinCostFlow.spfaInitG g).edges = g.edges ∧
    (MinCostFlow.spfaInitG g).adj = g.adj ∧
    (MinCostFlow.spfaInitG g).s = g.s ∧
    (MinCostFlow.spfaInitG g).t = g.t ∧
    (MinCostFlow.spfaInitG g).maxflow = g.maxflow ∧
    (MinCostFlow.spfaInitG g).mincost = g.mincost := by
  unfold MinCostFlow.spfaInitG
  simp

theorem spfaInitG_prefAt_t (g : MinCostFlow) (h : g.s ≠ g.t) :
    (MinCostFlow.spfaInitG g).prefAt g.t = USIZE_MAX := by
  unfold MinCostFlow.spfaInitG MinCostFlow.prefAt
  simp only []
  rw [getD_set_ne _ _ _ _ _ h]
  exact getD_replicate ..

theorem relaxScan_spec (u : Nat) :
    ∀ (L : List Nat) (g : MinCostFlow) (st : MinCostFlow.SpfaSt),
    (MinCostFlow.relaxScan g st u L).1.edges = g.edges ∧
    (MinCostFlow.relaxScan g st u L).1.adj = g.adj ∧
    (MinCostFlow.relaxScan g st u L).1.s = g.s ∧
    (MinCostFlow.relaxScan g st u L).1.t = g.t ∧
    (MinCostFlow.relaxScan g st u L).1.maxflow = g.maxflow ∧
    (MinCostFlow.relaxScan g st u L).1.mincost = g.mincost ∧
    (MinCostFlow.relaxScan g st u L).1.pi = g.pi ∧
    (noEdgeInto g.t g.edges →
      (MinCostFlow.relaxScan g st u L).1.prefAt g.t = g.prefAt g.t) := by
  intro L
  induction L with
  | nil =>
    intro g st
    exact ⟨rfl, rfl, rfl, rfl, rfl, rfl, rfl, fun _ => rfl⟩
  | cons id rest ih =>
    intro g st
    simp only [MinCostFlow.relaxScan]
    by_cases hg : (g.edgeAt id).f > 0 ∧
        g.distAt (g.edgeAt id).dst > g.distAt u + (g.edgeAt id).cost
    · simp only [hg, if_true]
      by_cases hcnt : g.adj.length ≤
          (st.cnt.set (g.edgeAt id).dst (st.cnt.getD (g.edgeAt id).dst 0 + 1)).getD
            (g.edgeAt id).dst 0
      · simp only [hcnt, if_true]
        refine ⟨rfl, rfl, rfl, rfl, rfl, rfl, rfl, fun hno => ?_⟩
        have hmem : g.edgeAt id ∈ g.edges := edge_mem_of_f_pos g id hg.1
        have hne : (g.edgeAt id).dst ≠ g.t := hno _ hmem
        exact getD_set_ne _ _ _ _ _ hne
      · simp only [hcnt, if_false]
        have hmem : g.edgeAt id ∈ g.edges := edge_mem_of_f_pos g id hg.1
        refine ⟨(ih _ _).1, (ih _ _).2.1, (ih _ _).2.2.1, (ih _ _).2.2.2.1,
          (ih _ _).2.2.2.2.1, (ih _ _).2.2.2.2.2.1, (ih _ _).2.2.2.2.2.2.1,
          fun hno => ?_⟩
        refine Eq.trans ((ih _ _).2.2.2.2.2.2.2 ?_)
          (getD_set_ne _ _ _ _ _ (hno _ hmem))
        exact hno
    · simp only [hg, if_false]
      exact ih g st

theorem spfaAux_spec :
    ∀ (fuel : Nat) (g : MinCostFlow) (st : MinCostFlow.SpfaSt)
      (g' : MinCostFlow) (b : Bool),
    g.edges.length % 2 = 0 →
    MinCostFlow.spfaAux fuel g st = some (g', b) →
    conserves g.edges g'.edges ∧ g'.adj = g.adj ∧ g'.s = g.s ∧ g'.t = g.t ∧
      g'.maxflow = g.maxflow ∧
      (noEdgeInto g.t g.edges → g.prefAt g.t = USIZE_MAX → g.s ≠ g.t →
        b = false ∧ g'.prefAt g'.t = USIZE_MAX) := by
  intro fuel
  induction fuel with
  | zero =>
    intro g st g' b _ H
    exact absurd H (by simp [MinCostFlow.spfaAux])
  | succ fuel ih =>
    intro g st g' b hev H
    obtain ⟨inq, cnt, q⟩ := st
    cases q with
    | nil =>
      simp only [MinCostFlow.spfaAux, Option.some.injEq, Prod.mk.injEq] at H
      obtain ⟨rfl, rfl⟩ := H
      refine ⟨conserves_refl _, rfl, rfl, rfl, rfl, fun _ hpref _ => ?_⟩
      simp [hpref]
    | cons u qrest =>
      simp only [MinCostFlow.spfaAux] at H
      rcases hE : MinCostFlow.relaxScan g ⟨inq.set u false, cnt, qrest⟩ u (g.adjAt u)
        with ⟨g1, st1, res⟩
      rw [hE] at H
      obtain ⟨he1, he2, he3, he4, he5, _, _, he8⟩ :=
        relaxScan_spec u (g.adjAt u) g ⟨inq.set u false, cnt, qrest⟩
      rw [hE] at he1 he2 he3 he4 he5 he8
      dsimp only at he1 he2 he3 he4 he5 he8
      cases res with
      | none =>
        have hev1 : g1.edges.length % 2 = 0 := by rw [he1]; exact hev
        obtain ⟨hc, ha, hs, ht, hm, hcond⟩ := ih g1 st1 g' b hev1 H
        refine ⟨by rw [he1] at hc; exact hc, ha.trans he2, hs.trans he3, ht.trans he4,
          hm.trans he5, fun hno hpref hst => ?_⟩
        have hno1 : noEdgeInto g1.t g1.edges := by rw [he4, he1]; exact hno
        have hpref1 : g1.prefAt g1.t = USIZE_MAX := by
          rw [he4]
          rw [he8 hno]
          exact hpref
        have hst1 : g1.s ≠ g1.t := by rw [he3, he4]; exact hst
        exact hcond hno1 hpref1 hst1
      | some v =>
        have hev1 : g1.edges.length % 2 = 0 := by rw [he1]; exact hev
        obtain ⟨hca, hcs, hct, hcm, _, _, _, _⟩ := cancel_fields g1 v
        have hcc : conserves g1.edges (g1.cancelNegativeCycle v).edges :=
          cancel_conserves g1 v hev1
        rw [he1] at hcc
        obtain ⟨hie, hia, his, hit, him, _⟩ := spfaInitG_fields (g1.cancelNegativeCycle v)
        have hev2 : (MinCostFlow.spfaInitG (g1.cancelNegativeCycle v)).edges.length % 2 = 0 := by
          rw [hie, hcc.1.1]
          exact hev
        obtain ⟨hc, ha, hs, ht, hm, hcond⟩ :=
          ih (MinCostFlow.spfaInitG (g1.cancelNegativeCycle v))
            (MinCostFlow.spfaInitSt (g1.cancelNegativeCycle v)) g' b hev2 H
        have hchain : conserves g.edges
            (MinCostFlow.spfaInitG (g1.cancelNegativeCycle v)).edges := by
          rw [hie]
          exact hcc
        refine ⟨conserves_trans hchain hc,
          ha.trans (hia.trans (hca.trans he2)),
          hs.trans (his.trans (hcs.trans he3)),
          ht.trans (hit.trans (hct.trans he4)),
          hm.trans (him.trans (hcm.trans he5)),
          fun hno hpref hst => ?_⟩
        have hno2 : noEdgeInto (MinCostFlow.spfaInitG (g1.cancelNegativeCycle v)).t
            (MinCostFlow.spfaInitG (g1.cancelNegativeCycle v)).edges := by
          rw [hie, hit, hct, he4]
          exact noEdgeInto_of_conserves hcc hno
        have hst2 : (MinCostFlow.spfaInitG (g1.cancelNegativeCycle v)).s ≠
            (MinCostFlow.spfaInitG (g1.cancelNegativeCycle v)).t := by
          rw [his, hit, hcs, hct, he3, he4]
          exact hst
        have hpref2 : (MinCostFlow.spfaInitG (g1.cancelNegativeCycle v)).prefAt
            (MinCostFlow.spfaInitG (g1.cancelNegativeCycle v)).t = USIZE_MAX := by
          rw [hit]
          exact spfaInitG_prefAt_t (g1.cancelNegativeCycle v)
            (by rw [hcs, hct, he3, he4]; exact hst)
        exact hcond hno2 hpref2 hst2

theorem spfa_spec (F : Nat) (g g' : MinCostFlow) (b : Bool)
    (hev : g.edges.length % 2 = 0)
    (H : MinCostFlow.spfa F g = some (g', b)) :
    conserves g.edges g'.edges ∧ g'.adj = g.adj ∧ g'.s = g.s ∧ g'.t = g.t ∧
      g'.maxflow = g.maxflow ∧
      (noEdgeInto g.t g.edges → g.s ≠ g.t → b = false) := by
  obtain ⟨hie, hia, his, hit, him, _⟩ := spfaInitG_fields g
  have hev1 : (MinCostFlow.spfaInitG g).edges.length % 2 = 0 := by rw [hie]; exact hev
  obtain ⟨hc, ha, hs, ht, hm, hcond⟩ :=
    spfaAux_spec F (MinCostFlow.spfaInitG g) (MinCostFlow.spfaInitSt g) g' b hev1 H
  refine ⟨by rw [hie] at hc; exact hc, ha.trans hia, hs.trans his, ht.trans hit,
    hm.trans him, fun hno hst => ?_⟩
  refine (hcond ?_ ?_ ?_).1
  · rw [hit, hie]
    exact hno
  · rw [hit]
    exact spfaInitG_prefAt_t g hst
  · rw [his, hit]
    exact hst

theorem dijkstraScan_spec (u : Nat) (d : Int) :
    ∀ (L : List Nat) (g : MinCostFlow) (h : List (Int × Nat)),
    (MinCostFlow.dijkstraScan g h u d L).1.edges = g.edges ∧
    (MinCostFlow.dijkstraScan g h u d L).1.adj = g.adj ∧
    (MinCostFlow.dijkstraScan g h u d L).1.s = g.s ∧
    (MinCostFlow.dijkstraScan g h u d L).1.t = g.t ∧
    (MinCostFlow.dijkstraScan g h u d L).1.maxflow = g.maxflow ∧
    (MinCostFlow.dijkstraScan g h u d L).1.mincost = g.mincost ∧
    (MinCostFlow.dijkstraScan g h u d L).1.pi = g.pi ∧
    (noEdgeInto g.t g.edges →
      (MinCostFlow.dijkstraScan g h u d L).1.prefAt g.t = g.prefAt g.t) := by
  intro L
  induction L with
  | nil =>
    intro g h
    exact ⟨rfl, rfl, rfl, rfl, rfl, rfl, rfl, fun _ => rfl⟩
  | cons id rest ih =>
    intro g h
    simp only [MinCostFlow.dijkstraScan]
    by_cases hg : (g.edgeAt id).f > 0 ∧ g.piAt u ≠ INF ∧ g.piAt (g.edgeAt id).dst ≠ INF
    · rw [if_pos hg]
      by_cases hnd : d + ((g.edgeAt id).cost - g.piAt (g.edgeAt id).dst + g.piAt u) <
          g.distAt (g.edgeAt id).dst
      · rw [if_pos hnd]
        have hmem : g.edgeAt id ∈ g.edges := edge_mem_of_f_pos g id hg.1
        refine ⟨(ih _ _).1, (ih _ _).2.1, (ih _ _).2.2.1, (ih _ _).2.2.2.1,
          (ih _ _).2.2.2.2.1, (ih _ _).2.2.2.2.2.1, (ih _ _).2.2.2.2.2.2.1,
          fun hno => ?_⟩
        refine Eq.trans ((ih _ _).2.2.2.2.2.2.2 ?_)
          (getD_set_ne _ _ _ _ _ (hno _ hmem))
        exact hno
      · rw [if_neg hnd]
        exact ih g h
    · rw [if_neg hg]
      exact ih g h

theorem dijkstraAux_spec :
    ∀ (fuel : Nat) (g : MinCostFlow) (h : List (Int × Nat)) (g' : MinCostFlow),
    MinCostFlow.dijkstraAux fuel g h = some g' →
    g'.edges = g.edges ∧ g'.adj = g.adj ∧ g'.s = g.s ∧ g'.t = g.t ∧
      g'.maxflow = g.maxflow ∧ g'.mincost = g.mincost ∧ g'.pi = g.pi ∧
      (noEdgeInto g.t g.edges → g'.prefAt g.t = g.prefAt g.t) := by
  intro fuel
  induction fuel with
  | zero =>
    intro g h g' H
    exact absurd H (by simp [MinCostFlow.dijkstraAux])
  | succ fuel ih =>
    intro g h g' H
    simp only [MinCostFlow.dijkstraAux] at H
    rcases hpop : MinCostFlow.heapPopMin h with _ | ⟨⟨d, u⟩, h1⟩
    · rw [hpop] at H
      dsimp only at H
      simp only [Option.some.injEq] at H
      subst H
      exact ⟨rfl, rfl, rfl, rfl, rfl, rfl, rfl, fun _ => rfl⟩
    · rw [hpop] at H
      dsimp only at H
      by_cases hd : d ≠ g.distAt u
      · rw [if_pos hd] at H
        exact ih g h1 g' H
      · rw [if_neg hd] at H
        rcases hsc : MinCostFlow.dijkstraScan g h1 u d (g.adjAt u) with ⟨g1, h2⟩
        rw [hsc] at H
        dsimp only at H
        obtain ⟨he1, he2, he3, he4, he5, he6, he7, he8⟩ :=
          dijkstraScan_spec u d (g.adjAt u) g h1
        rw [hsc] at he1 he2 he3 he4 he5 he6 he7 he8
        dsimp only at he1 he2 he3 he4 he5 he6 he7 he8
        obtain ⟨hc1, hc2, hc3, hc4, hc5, hc6, hc7, hc8⟩ := ih g1 h2 g' H
        refine ⟨hc1.trans he1, hc2.trans he2, hc3.trans he3, hc4.trans he4,
          hc5.trans he5, hc6.trans he6, hc7.trans he7, fun hno => ?_⟩
        have hno1 : noEdgeInto g1.t g1.edges := by rw [he4, he1]; exact hno
        have hstep := hc8 hno1
        rw [he4] at hstep
        exact hstep.trans (he8 hno)

theorem dijkstra_spec (F : Nat) (g g' : MinCostFlow) (b : Bool)
    (H : MinCostFlow.dijkstra F g = some (g', b)) :
    g'.edges = g.edges ∧ g'.adj = g.adj ∧ g'.s = g.s ∧ g'.t = g.t ∧
      g'.maxflow = g.maxflow ∧ g'.mincost = g.mincost ∧
      (noEdgeInto g.t g.edges → g.s ≠ g.t → b = false) := by
  unfold MinCostFlow.dijkstra at H
  simp only [] at H
  rcases haux : MinCostFlow.dijkstraAux F
      { g with
        pref := (List.replicate g.adj.length USIZE_MAX).set g.s g.s,
        dist := (List.replicate g.adj.length INF).set g.s 0 } [(0, g.s)]
    with _ | g1
  · rw [haux] at H
    dsimp only at H
    exact absurd H (by simp)
  · rw [haux] at H
    dsimp only at H
    obtain ⟨he1, he2, he3, he4, he5, he6, he7, he8⟩ := dijkstraAux_spec F _ _ _ haux
    dsimp only at he1 he2 he3 he4 he5 he6 he7 he8
    by_cases hpf : g1.prefAt g1.t = USIZE_MAX
    · rw [if_pos hpf] at H
      simp only [Option.some.injEq, Prod.mk.injEq] at H
      obtain ⟨rfl, rfl⟩ := H
      exact ⟨he1, he2, he3, he4, he5, he6, fun _ _ => rfl⟩
    · rw [if_neg hpf] at H
      simp only [Option.some.injEq, Prod.mk.injEq] at H
      obtain ⟨rfl, rfl⟩ := H
      refine ⟨he1, he2, he3, he4, he5, he6, fun hno hst => ?_⟩
      exfalso
      apply hpf
      rw [he4]
      have hinit : ((List.replicate g.adj.length USIZE_MAX).set g.s g.s).getD g.t
          USIZE_MAX = USIZE_MAX := by
        rw [getD_set_ne _ _ _ _ _ hst]
        exact getD_replicate ..
      exact (he8 hno).trans hinit

theorem extend_spec (F : Nat) (g : MinCostFlow) (hev : g.edges.length % 2 = 0) :
    conserves g.edges (MinCostFlow.extend F g).edges ∧
    (MinCostFlow.extend F g).adj = g.adj ∧
    (MinCostFlow.extend F g).s = g.s ∧
    (MinCostFlow.extend F g).t = g.t := by
  unfold MinCostFlow.extend
  simp only [foldl_pushFlow_eq]
  exact ⟨conserves_foldl_edgesPush _ _ _ hev, trivial, trivial, trivial⟩

theorem phase1_conserves (F : Nat) :
    ∀ (fuel : Nat) (g g' : MinCostFlow),
    g.edges.length % 2 = 0 →
    MinCostFlow.phase1 F fuel g = some g' →
    conserves g.edges g'.edges ∧ g'.adj = g.adj ∧ g'.s = g.s ∧ g'.t = g.t := by
  intro fuel
  induction fuel with
  | zero =>
    intro g g' _ H
    exact absurd H (by simp [MinCostFlow.phase1])
  | succ fuel ih =>
    intro g g' hev H
    simp only [MinCostFlow.phase1] at H
    rcases hsp : MinCostFlow.spfa F g with _ | ⟨g1, b⟩
    · rw [hsp] at H
      exact absurd H (by simp)
    · rw [hsp] at H
      obtain ⟨hc, ha, hs, ht, _, _⟩ := spfa_spec F g g1 b hev hsp
      cases b with
      | true =>
        dsimp only at H
        have hev1 : g1.edges.length % 2 = 0 := by rw [hc.1.1]; exact hev
        obtain ⟨hec, hea, hes, het⟩ := extend_spec F g1 hev1
        have hev2 : (MinCostFlow.extend F g1).edges.length % 2 = 0 := by
          rw [hec.1.1]
          exact hev1
        obtain ⟨hic, hia, his, hit⟩ := ih (MinCostFlow.extend F g1) g' hev2 H
        exact ⟨conserves_trans hc (conserves_trans hec hic),
          hia.trans (hea.trans ha), his.trans (hes.trans hs), hit.trans (het.trans ht)⟩
      | false =>
        dsimp only at H
        simp only [Option.some.injEq] at H
        subst H
        exact ⟨hc, ha, hs, ht⟩

theorem phase1_flow0 (F : Nat) :
    ∀ (fuel : Nat) (g g' : MinCostFlow),
    g.edges.length % 2 = 0 →
    noEdgeInto g.t g.edges →
    g.s ≠ g.t →
    MinCostFlow.phase1 F fuel g = some g' →
    g'.maxflow = g.maxflow := by
  intro fuel
  induction fuel with
  | zero =>
    intro g g' _ _ _ H
    exact absurd H (by simp [MinCostFlow.phase1])
  | succ fuel _ =>
    intro g g' hev hno hst H
    simp only [MinCostFlow.phase1] at H
    rcases hsp : MinCostFlow.spfa F g with _ | ⟨g1, b⟩
    · rw [hsp] at H
      exact absurd H (by simp)
    · rw [hsp] at H
      obtain ⟨_, _, _, _, hm, hcond⟩ := spfa_spec F g g1 b hev hsp
      have hb : b = false := hcond hno hst
      subst hb
      dsimp only at H
      simp only [Option.some.injEq] at H
      subst H
      exact hm

theorem phase2_conserves (F : Nat) :
    ∀ (fuel : Nat) (g g' : MinCostFlow),
    g.edges.length % 2 = 0 →
    MinCostFlow.phase2 F fuel g = some g' →
    conserves g.edges g'.edges ∧ g'.adj = g.adj ∧ g'.s = g.s ∧ g'.t = g.t := by
  intro fuel
  induction fuel with
  | zero =>
    intro g g' _ H
    exact absurd H (by simp [MinCostFlow.phase2])
  | succ fuel ih =>
    intro g g' hev H
    simp only [MinCostFlow.phase2] at H
    rcases hsp : MinCostFlow.dijkstra F g with _ | ⟨g1, b⟩
    · rw [hsp] at H
      exact absurd H (by simp)
    · rw [hsp] at H
      obtain ⟨hc, ha, hs, ht, _, _, _⟩ := dijkstra_spec F g g1 b hsp
      cases b with
      | true =>
        dsimp only at H
        have hev1 : g1.edges.length % 2 = 0 := by rw [hc]; exact hev
        obtain ⟨hec, hea, hes, het⟩ := extend_spec F g1 hev1
        have hev2 : (MinCostFlow.extend F g1).edges.length % 2 = 0 := by
          rw [hec.1.1]
          exact hev1
        obtain ⟨hic, hia, his, hit⟩ := ih (MinCostFlow.extend F g1) g' hev2 H
        have hc' : conserves g.edges g1.edges := by
          rw [hc]
          exact conserves_refl _
        exact ⟨conserves_trans hc' (conserves_trans hec hic),
          hia.trans (hea.trans ha), his.trans (hes.trans hs), hit.trans (het.trans ht)⟩
      | false =>
        dsimp only at H
        simp only [Option.some.injEq] at H
        subst H
        exact ⟨by rw [hc]; exact conserves_refl _, ha, hs, ht⟩

theorem phase2_flow0 (F : Nat) :
    ∀ (fuel : Nat) (g g' : MinCostFlow),
    noEdgeInto g.t g.edges →
    g.s ≠ g.t →
    MinCostFlow.phase2 F fuel g = some g' →
    g'.maxflow = g.maxflow := by
  intro fuel
  induction fuel with
  | zero =>
    intro g g' _ _ H
    exact absurd H (by simp [MinCostFlow.phase2])
  | succ fuel _ =>
    intro g g' hno hst H
    simp only [MinCostFlow.phase2] at H
    rcases hsp : MinCostFlow.dijkstra F g with _ | ⟨g1, b⟩
    · rw [hsp] at H
      exact absurd H (by simp)
    · rw [hsp] at H
      obtain ⟨_, _, _, _, hm, _, hcond⟩ := dijkstra_spec F g g1 b hsp
      have hb : b = false := hcond hno hst
      subst hb
      dsimp only at H
      simp only [Option.some.injEq] at H
      subst H
      exact hm

theorem mincostflow_conserves (F : Nat) (g : MinCostFlow) (r : Int × Int)
    (g' : MinCostFlow) (hev : g.edges.length % 2 = 0)
    (H : MinCostFlow.mincostflow F g = some (r, g')) :
    conserves g.edges g'.edges ∧ g'.adj = g.adj ∧ g'.s = g.s ∧ g'.t = g.t ∧
      r = (g'.mincost, g'.maxflow) := by
  unfold MinCostFlow.mincostflow MinCostFlow.update_flow at H
  simp only [] at H
  rcases hp1 : MinCostFlow.phase1 F F
      { g with
        con := MinCostFlow.resizeTo (List.replicate g.adj.length 0) g.adj.length 0,
        pi := MinCostFlow.resizeTo (List.replicate g.adj.length 0) g.adj.length 0,
        maxflow := 0, mincost := 0 }
    with _ | g1
  · rw [hp1] at H
    exact absurd H (by simp)
  · rw [hp1] at H
    dsimp only at H
    have hev0 : ({ g with
        con := MinCostFlow.resizeTo (List.replicate g.adj.length 0) g.adj.length 0,
        pi := MinCostFlow.resizeTo (List.replicate g.adj.length 0) g.adj.length 0,
        maxflow := 0, mincost := 0 } : MinCostFlow).edges.length % 2 = 0 := hev
    obtain ⟨hc1, ha1, hs1, ht1⟩ := phase1_conserves F F _ g1 hev0 hp1
    rcases hp2 : MinCostFlow.phase2 F F g1 with _ | g2
    · rw [hp2] at H
      exact absurd H (by simp)
    · rw [hp2] at H
      dsimp only at H
      have hev1 : g1.edges.length % 2 = 0 := by rw [hc1.1.1]; exact hev
      obtain ⟨hc2, ha2, hs2, ht2⟩ := phase2_conserves F F g1 g2 hev1 hp2
      simp only [Option.some.injEq, Prod.mk.injEq] at H
      obtain ⟨rfl, rfl⟩ := H
      exact ⟨conserves_trans hc1 hc2, ha2.trans ha1, hs2.trans hs1, ht2.trans ht1, rfl⟩

theorem mincostflow_flow0 (F : Nat) (g : MinCostFlow) (r : Int × Int)
    (g' : MinCostFlow) (hev : g.edges.length % 2 = 0)
    (hno : noEdgeInto g.t g.edges) (hst : g.s ≠ g.t)
    (H : MinCostFlow.mincostflow F g = some (r, g')) :
    r.2 = 0 := by
  unfold MinCostFlow.mincostflow MinCostFlow.update_flow at H
  simp only [] at H
  rcases hp1 : MinCostFlow.phase1 F F
      { g with
        con := MinCostFlow.resizeTo (List.replicate g.adj.length 0) g.adj.length 0,
        pi := MinCostFlow.resizeTo (List.replicate g.adj.length 0) g.adj.length 0,
        maxflow := 0, mincost := 0 }
    with _ | g1
  · rw [hp1] at H
    exact absurd H (by simp)
  · rw [hp1] at H
    dsimp only at H
    have hev0 : ({ g with
        con := MinCostFlow.resizeTo (List.replicate g.adj.length 0) g.adj.length 0,
        pi := MinCostFlow.resizeTo (List.replicate g.adj.length 0) g.adj.length 0,
        maxflow := 0, mincost := 0 } : MinCostFlow).edges.length % 2 = 0 := hev
    have hno0 : noEdgeInto ({ g with
        con := MinCostFlow.resizeTo (List.replicate g.adj.length 0) g.adj.length 0,
        pi := MinCostFlow.resizeTo (List.replicate g.adj.length 0) g.adj.length 0,
        maxflow := 0, mincost := 0 } : MinCostFlow).t ({ g with
        con := MinCostFlow.resizeTo (List.replicate g.adj.length 0) g.adj.length 0,
        pi := MinCostFlow.resizeTo (List.replicate g.adj.length 0) g.adj.length 0,
        maxflow := 0, mincost := 0 } : MinCostFlow).edges := hno
    obtain ⟨hc1, ha1, hs1, ht1⟩ := phase1_conserves F F _ g1 hev0 hp1
    have hm1 : g1.maxflow = 0 := phase1_flow0 F F _ g1 hev0 hno0 hst hp1
    rcases hp2 : MinCostFlow.phase2 F F g1 with _ | g2
    · rw [hp2] at H
      exact absurd H (by simp)
    · rw [hp2] at H
      dsimp only at H
      have hno1 : noEdgeInto g1.t g1.edges := by
        rw [ht1]
        exact noEdgeInto_of_conserves hc1 hno
      have hst1 : g1.s ≠ g1.t := by rw [hs1, ht1]; exact hst
      have hm2 : g2.maxflow = g1.maxflow := phase2_flow0 F F g1 g2 hno1 hst1 hp2
      simp only [Option.some.injEq, Prod.mk.injEq] at H
      obtain ⟨rfl, rfl⟩ := H
      rw [hm2]
      exact hm1

theorem not_residualReach_of_noEdgeInto (g : MinCostFlow) (u : Nat)
    (hno : noEdgeInto g.t g.edges) (hut : u ≠ g.t) :
    ¬ residualReach g u g.t := by
  intro hreach
  rcases Relation.ReflTransGen.cases_tail hreach with heq | ⟨c, _, hstep⟩
  · exact hut heq.symm
  · obtain ⟨id, _, hdst, hf⟩ := hstep
    exact hno _ (edge_mem_of_f_pos g id hf) hdst

theorem getD_append_lt {α : Type} (l1 l2 : List α) (i : Nat) (d : α)
    (h : i < l1.length) : (l1 ++ l2).getD i d = l1.getD i d := by
  rw [List.getD_eq_getElem?_getD, List.getD_eq_getElem?_getD, List.getElem?_append]
  rw [if_pos h]

theorem getD_concat_self {α : Type} (l : List α) (a d : α) :
    (l ++ [a]).getD l.length d = a := by
  rw [List.getD_eq_getElem?_getD, List.getElem?_append]
  rw [if_neg (by omega)]
  simp

/-! ## Claim C5 -/

/-- A set of nodes that contains the source, misses the sink and is
closed under residual steps separates the two: the sink is not
residually reachable.  The closure hypothesis ranges over the adjacency
lists, so it is decidable on a concrete graph. -/
theorem not_residualReach_of_closed (g : MinCostFlow) (S : List Nat)
    (hs : g.s ∈ S) (ht : g.t ∉ S)
    (hcl : ∀ u ∈ S, ∀ id ∈ g.adjAt u, 0 < (g.edgeAt id).f →
      (g.edgeAt id).dst ∈ S) :
    ¬ residualReach g g.s g.t := by
  intro h
  have key : ∀ v, residualReach g g.s v → v ∈ S := by
    intro v hv
    induction hv with
    | refl => exact hs
    | tail hab hbc ih =>
      obtain ⟨id, hid, hdst, hf⟩ := hbc
      have hmem := hcl _ ih id hid hf
      rw [hdst] at hmem
      exact hmem
  exact ht (key _ h)

/-- C5 (counterexample): `min_cost_flow` on a graph whose sink is
unreachable from the source does not return `(0, 0)`, and not even the
flow component is guaranteed.  (a) On `exNegCycleG` the sink has no
incident edge at all, yet the SPFA phase cancels the negative cycle
`2 → 3 → 2` and returns `(-2, 0)`.  (b) On `exGarbageG` the sink is
residually unreachable, yet the run returns `(-2, 5)` with flow
`5 ≠ 0`: a misdirected cycle detection walks `pref` back onto the
source, cancels through the stale `con[s] = 0` entry — the real edge
`0` — which opens residual capacity from the source into the
unreachable region, and a later augmentation then carries flow `5` to
the sink. -/
theorem mincostflow_unreachable_sink_counterexample :
    (¬ residualReach exNegCycleG exNegCycleG.s exNegCycleG.t ∧
      (MinCostFlow.mincostflow 100 exNegCycleG).map Prod.fst = some (-2, 0) ∧
      ((-2 : Int), (0 : Int)) ≠ ((0 : Int), (0 : Int))) ∧
    (¬ residualReach exGarbageG exGarbageG.s exGarbageG.t ∧
      (MinCostFlow.mincostflow 300 exGarbageG).map Prod.fst = some (-2, 5) ∧
      (5 : Int) ≠ 0) := by
  refine ⟨⟨not_residualReach_of_noEdgeInto exNegCycleG _ (by decide) (by decide),
    by decide, by decide⟩,
    ⟨not_residualReach_of_closed exGarbageG [0, 2, 3, 4, 6, 7, 8, 9, 10]
      (by decide) (by decide) (by decide), by decide, by decide⟩⟩

/-- C5 (amended): `min_cost_flow()` called on a graph whose sink has no
incoming edge at all (so in particular no residual augmenting path from
the source exists — the first conjunct of the conclusion) returns zero
total flow.  The cost component is not constrained — negative-cycle
cancellation may have charged cancelled cycles' cost (counterexample
part (a)) — and under the weaker hypothesis of mere residual
unreachability even the flow component can be nonzero (counterexample
part (b)), so the no-incoming-edge hypothesis is the strongest form of
the claim the code satisfies. -/
theorem mincostflow_unreachable_sink_zero_flow
    (F : Nat) (g : MinCostFlow) (r : Int × Int) (g' : MinCostFlow)
    (hev : g.edges.length % 2 = 0)
    (hno : noEdgeInto g.t g.edges) (hst : g.s ≠ g.t)
    (H : MinCostFlow.mincostflow F g = some (r, g')) :
    ¬ residualReach g g.s g.t ∧ r.2 = 0 :=
  ⟨not_residualReach_of_noEdgeInto g g.s hno hst,
    mincostflow_flow0 F g r g' hev hno hst H⟩

/-- Witness for the amended C5 at the concrete graph `exNegCycleG`. -/
theorem mincostflow_unreachable_sink_zero_flow_witness :
    exNegCycleG.edges.length % 2 = 0 ∧
    ¬ residualReach exNegCycleG exNegCycleG.s exNegCycleG.t ∧
    ((-2 : Int), (0 : Int)).2 = 0 :=
  ⟨by decide,
    (mincostflow_unreachable_sink_zero_flow 100 exNegCycleG (-2, 0) exNegCycleSolvedG
      (by decide) (by decide) (by decide) (by decide)).1,
    (mincostflow_unreachable_sink_zero_flow 100 exNegCycleG (-2, 0) exNegCycleSolvedG
      (by decide) (by decide) (by decide) (by decide)).2⟩

/-! ## Claim C7 -/

/-- C7: `add_edge(u, v, cap, cost)` returns the even index of the
appended forward edge; the reverse edge sits at `handle XOR 1 =
handle + 1` with residual 0 and cost `-cost`; earlier edges are
untouched, so handles stay stable; and a full `min_cost_flow` run only
moves residual between the two members of a pair, so each pair's
residual sum (forward plus reverse, i.e. the original capacity) and
every edge's target and cost are preserved (total skew zero). -/
theorem mcmf_edge_pair_invariant (g : MinCostFlow) (u v : Nat) (cap cost : Int)
    (hev : g.edges.length % 2 = 0) :
    (g.add_edge u v cap cost).1 = g.edges.length ∧
    (g.add_edge u v cap cost).1 % 2 = 0 ∧
    (g.add_edge u v cap cost).1 ^^^ 1 = (g.add_edge u v cap cost).1 + 1 ∧
    edAt (g.add_edge u v cap cost).2.edges (g.add_edge u v cap cost).1 =
      ⟨v, cap, cost⟩ ∧
    edAt (g.add_edge u v cap cost).2.edges ((g.add_edge u v cap cost).1 ^^^ 1) =
      ⟨u, 0, -cost⟩ ∧
    (g.add_edge u v cap cost).2.edges.length % 2 = 0 ∧
    (∀ id, id < g.edges.length →
      edAt (g.add_edge u v cap cost).2.edges id = edAt g.edges id) ∧
    (∀ (F : Nat) (r : Int × Int) (g'' : MinCostFlow),
      MinCostFlow.mincostflow F g = some (r, g'') → conserves g.edges g''.edges) := by
  obtain ⟨m, hm⟩ : ∃ m, g.edges.length = 2 * m := by
    refine ⟨g.edges.length / 2, ?_⟩
    omega
  have hxor : g.edges.length ^^^ 1 = g.edges.length + 1 := by
    rw [hm]
    exact xor_one_of_even m
  have hfwd : edAt ((g.edges ++ [({ dst := v, f := cap, cost := cost } : Edge)]) ++
      [({ dst := u, f := 0, cost := -cost } : Edge)]) g.edges.length =
      { dst := v, f := cap, cost := cost } := by
    unfold edAt
    rw [getD_append_lt _ _ _ _ (by simp), getD_concat_self]
  have hlen1 : (g.edges ++ [({ dst := v, f := cap, cost := cost } : Edge)]).length =
      g.edges.length + 1 := by simp
  have hrev : edAt ((g.edges ++ [({ dst := v, f := cap, cost := cost } : Edge)]) ++
      [({ dst := u, f := 0, cost := -cost } : Edge)]) (g.edges.length + 1) =
      { dst := u, f := 0, cost := -cost } := by
    unfold edAt
    rw [← hlen1, getD_concat_self]
  refine ⟨rfl, hev, hxor, hfwd, ?_, ?_, ?_, ?_⟩
  · show edAt ((g.edges ++ [({ dst := v, f := cap, cost := cost } : Edge)]) ++
      [({ dst := u, f := 0, cost := -cost } : Edge)]) (g.edges.length ^^^ 1) = _
    rw [hxor]
    exact hrev
  · show ((g.edges ++ [({ dst := v, f := cap, cost := cost } : Edge)]) ++
      [({ dst := u, f := 0, cost := -cost } : Edge)]).length % 2 = 0
    simp
    omega
  · intro id hid
    show edAt ((g.edges ++ [({ dst := v, f := cap, cost := cost } : Edge)]) ++
      [({ dst := u, f := 0, cost := -cost } : Edge)]) id = _
    unfold edAt
    rw [getD_append_lt _ _ _ _ (by simp; omega), getD_append_lt _ _ _ _ hid]
  · intro F r g2 H
    exact (mincostflow_conserves F g r g2 hev H).1

/-! ## The smart-home flow wrapper: `calc_flow` characterisation -/

theorem calc_flow_spec (F : Nat) (s : SmartHomeFlow) (base top : FlowWrapper)
    (hstack : s.flow.stack = [base, top]) :
    SmartHomeFlow.calc_flow F s =
      Option.map
        (fun p => { s with flow := ⟨[base, p.2]⟩, calc_result := some p.1.1 })
        ((SmartHomeFlow.addConstantEdges base s.constant_actions).mincostflow F) := by
  have hflow : s.flow = ⟨[base, top]⟩ := by
    have heta : (⟨s.flow.stack⟩ : StackProxy FlowWrapper) = s.flow := rfl
    rw [← heta, hstack]
  unfold SmartHomeFlow.calc_flow
  rw [hflow]
  have hpop : StackProxy.pop (⟨[base, top]⟩ : StackProxy FlowWrapper) =
      some ⟨[base]⟩ := by
    unfold StackProxy.pop
    rw [if_pos (by simp)]
    rfl
  rw [hpop]
  dsimp only
  have hpush : StackProxy.push (⟨[base]⟩ : StackProxy FlowWrapper) = ⟨[base, base]⟩ := by
    unfold StackProxy.push
    rfl
  rw [hpush]
  have htop : StackProxy.top? (⟨[base, base]⟩ : StackProxy FlowWrapper) = some base := by
    unfold StackProxy.top?
    rfl
  rw [htop]
  dsimp only
  rcases hmcf : (SmartHomeFlow.addConstantEdges base s.constant_actions).mincostflow F
    with _ | ⟨r, w2⟩
  · rfl
  · dsimp only
    have hset : StackProxy.setTop (⟨[base, base]⟩ : StackProxy FlowWrapper) w2 =
        ⟨[base, w2]⟩ := by
      unfold StackProxy.setTop StackProxy.modifyTop
      rfl
    rw [hset]
    rfl

theorem get_cost_spec (F : Nat) (s : SmartHomeFlow) (base top : FlowWrapper)
    (hstack : s.flow.stack = [base, top]) (hcache : s.calc_result = none) :
    SmartHomeFlow.get_cost F s =
      Option.map
        (fun p => (p.1.1,
          { s with flow := ⟨[base, p.2]⟩, calc_result := some p.1.1 }))
        ((SmartHomeFlow.addConstantEdges base s.constant_actions).mincostflow F) := by
  unfold SmartHomeFlow.get_cost
  rw [hcache]
  rw [calc_flow_spec F s base top hstack]
  rcases hmcf : (SmartHomeFlow.addConstantEdges base s.constant_actions).mincostflow F
    with _ | ⟨r, w2⟩
  · rfl
  · rfl

theorem get_schedule_spec (F : Nat) (s : SmartHomeFlow) (base top : FlowWrapper)
    (hstack : s.flow.stack = [base, top]) (hcache : s.calc_result = none) :
    SmartHomeFlow.get_schedule F s =
      Option.map
        (fun p => (s.blueprint.construct p.2,
          { s with flow := ⟨[base, p.2]⟩, calc_result := some p.1.1 }))
        ((SmartHomeFlow.addConstantEdges base s.constant_actions).mincostflow F) := by
  unfold SmartHomeFlow.get_schedule
  rw [hcache]
  rw [calc_flow_spec F s base top hstack]
  rcases hmcf : (SmartHomeFlow.addConstantEdges base s.constant_actions).mincostflow F
    with _ | ⟨r, w2⟩
  · rfl
  · rfl

/-! ## Claim C2 -/

/-- C2: when the cache is empty, `cost()`/`schedule()` pop the overlay,
push a fresh copy of the baseline, add one `Wire(t) → Sink` edge of
capacity `consumption` and cost 1 for each assigned constant load and
each step of its active interval (the `addConstantEdges` loop), run
`min_cost_flow`, and cache the cost; `add_constant_consumption` and
`remove_constant_consumption` only mutate the id → load map and clear
the cache; a second `cost()` call returns the cached value without
re-solving; and after a `cost()`/`schedule()` call the overlay exactly
reflects the map. -/
theorem smart_home_flow_lazy_recompute (F : Nat) (s : SmartHomeFlow)
    (base top : FlowWrapper) (hstack : s.flow.stack = [base, top]) :
    (∀ ca, (s.add_constant_consumption ca).flow = s.flow ∧
      (s.add_constant_consumption ca).calc_result = none ∧
      (s.add_constant_consumption ca).constant_actions =
        mapInsert s.constant_actions ca.get_id ca ∧
      (s.add_constant_consumption ca).blueprint = s.blueprint) ∧
    (∀ id, (s.remove_constant_consumption id).2.flow = s.flow ∧
      (s.remove_constant_consumption id).2.calc_result = none ∧
      (s.remove_constant_consumption id).2.constant_actions =
        mapRemove s.constant_actions id ∧
      (s.remove_constant_consumption id).1 = mapLookup s.constant_actions id) ∧
    (s.calc_result = none →
      ∀ c s', SmartHomeFlow.get_cost F s = some (c, s') →
        s'.constant_actions = s.constant_actions ∧
        s'.calc_result = some c ∧
        costOf F base s.constant_actions = some c ∧
        overlayReflects F s' ∧
        SmartHomeFlow.get_cost F s' = some (c, s')) ∧
    (∀ c, s.calc_result = some c → SmartHomeFlow.get_cost F s = some (c, s)) ∧
    (s.calc_result = none →
      ∀ sch s', SmartHomeFlow.get_schedule F s = some (sch, s') →
        s'.constant_actions = s.constant_actions ∧ overlayReflects F s') := by
  refine ⟨fun ca => ⟨rfl, rfl, rfl, rfl⟩, fun id => ⟨rfl, rfl, rfl, rfl⟩,
    ?_, ?_, ?_⟩
  · intro hcache c s' H
    rw [get_cost_spec F s base top hstack hcache] at H
    rcases hmcf : (SmartHomeFlow.addConstantEdges base s.constant_actions).mincostflow F
      with _ | ⟨r, w2⟩
    · rw [hmcf] at H
      exact absurd H (by simp)
    · rw [hmcf] at H
      simp only [Option.map, Option.some.injEq, Prod.mk.injEq] at H
      obtain ⟨rfl, rfl⟩ := H
      refine ⟨rfl, rfl, ?_, ?_, ?_⟩
      · unfold costOf
        rw [show ((SmartHomeFlow.addConstantEdges base s.constant_actions).mincostflow F) =
          some (r, w2) from hmcf]
        rfl
      · exact ⟨base, w2, rfl, by unfold solvedOverlay; rw [hmcf]; rfl⟩
      · rfl
  · intro c hc
    unfold SmartHomeFlow.get_cost
    rw [hc]
  · intro hcache sch s' H
    rw [get_schedule_spec F s base top hstack hcache] at H
    rcases hmcf : (SmartHomeFlow.addConstantEdges base s.constant_actions).mincostflow F
      with _ | ⟨r, w2⟩
    · rw [hmcf] at H
      exact absurd H (by simp)
    · rw [hmcf] at H
      simp only [Option.map, Option.some.injEq, Prod.mk.injEq] at H
      obtain ⟨rfl, rfl⟩ := H
      exact ⟨rfl, base, w2, rfl, by unfold solvedOverlay; rw [hmcf]; rfl⟩

/-- Witness for C2 on a concrete cached state. -/
theorem smart_home_flow_lazy_recompute_witness :
    exCachedFlow.flow.stack = [FlowWrapper.new, FlowWrapper.new] ∧
    SmartHomeFlow.get_cost 1 exCachedFlow = some (7, exCachedFlow) :=
  ⟨rfl,
    (smart_home_flow_lazy_recompute 1 exCachedFlow FlowWrapper.new FlowWrapper.new
      rfl).2.2.2.1 7 rfl⟩

/-! ## Claim C10 -/

/-- C10: the wrapper keeps the snapshot stack at depth exactly 2 with an
unchanged bottom (baseline) frame: the constructor pushes once onto the
depth-1 stack; `add`/`remove` leave the stack alone; `calc_flow` (and so
`get_cost`/`get_schedule`) pops — never below depth 1, so the fatal
branch of `pop` is unreachable — and immediately pushes, landing back on
`[baseline, overlay]`. -/
theorem smart_home_flow_depth_invariant (fw : FlowWrapper) (bp : SmartHomeBlueprint)
    (s : SmartHomeFlow) (base top : FlowWrapper)
    (hstack : s.flow.stack = [base, top]) :
    (SmartHomeFlow.new fw bp).flow.stack = [fw, fw] ∧
    s.flow.pop ≠ none ∧
    (∀ ca, (s.add_constant_consumption ca).flow.stack = [base, top]) ∧
    (∀ id, (s.remove_constant_consumption id).2.flow.stack = [base, top]) ∧
    (∀ F s', SmartHomeFlow.calc_flow F s = some s' →
      ∃ ov, s'.flow.stack = [base, ov]) ∧
    (∀ F c s', SmartHomeFlow.get_cost F s = some (c, s') →
      ∃ ov, s'.flow.stack = [base, ov]) ∧
    (∀ F sch s', SmartHomeFlow.get_schedule F s = some (sch, s') →
      ∃ ov, s'.flow.stack = [base, ov]) := by
  have hflow : s.flow = ⟨[base, top]⟩ := by
    have heta : (⟨s.flow.stack⟩ : StackProxy FlowWrapper) = s.flow := rfl
    rw [← heta, hstack]
  refine ⟨rfl, ?_, fun _ => hstack, fun _ => hstack, ?_, ?_, ?_⟩
  · rw [hflow]
    unfold StackProxy.pop
    rw [if_pos (by simp)]
    simp
  · intro F s' H
    rw [calc_flow_spec F s base top hstack] at H
    rcases hmcf : (SmartHomeFlow.addConstantEdges base s.constant_actions).mincostflow F
      with _ | ⟨r, w2⟩
    · rw [hmcf] at H
      exact absurd H (by simp)
    · rw [hmcf] at H
      simp only [Option.map, Option.some.injEq] at H
      subst H
      exact ⟨w2, rfl⟩
  · intro F c s' H
    rcases hcache : s.calc_result with _ | c0
    · rw [get_cost_spec F s base top hstack hcache] at H
      rcases hmcf : (SmartHomeFlow.addConstantEdges base s.constant_actions).mincostflow F
        with _ | ⟨r, w2⟩
      · rw [hmcf] at H
        exact absurd H (by simp)
      · rw [hmcf] at H
        simp only [Option.map, Option.some.injEq, Prod.mk.injEq] at H
        obtain ⟨rfl, rfl⟩ := H
        exact ⟨w2, rfl⟩
    · unfold SmartHomeFlow.get_cost at H
      rw [hcache] at H
      simp only [Option.some.injEq, Prod.mk.injEq] at H
      obtain ⟨rfl, rfl⟩ := H
      exact ⟨top, hstack⟩
  · intro F sch s' H
    rcases hcache : s.calc_result with _ | c0
    · rw [get_schedule_spec F s base top hstack hcache] at H
      rcases hmcf : (SmartHomeFlow.addConstantEdges base s.constant_actions).mincostflow F
        with _ | ⟨r, w2⟩
      · rw [hmcf] at H
        exact absurd H (by simp)
      · rw [hmcf] at H
        simp only [Option.map, Option.some.injEq, Prod.mk.injEq] at H
        obtain ⟨rfl, rfl⟩ := H
        exact ⟨w2, rfl⟩
    · unfold SmartHomeFlow.get_schedule at H
      rw [hcache] at H
      rw [show StackProxy.top? s.flow = some top by rw [hflow]; rfl] at H
      simp only [Option.some.injEq, Prod.mk.injEq] at H
      obtain ⟨rfl, rfl⟩ := H
      exact ⟨top, hstack⟩

/-- Witness for C10 on a concrete depth-2 state. -/
theorem smart_home_flow_depth_invariant_witness :
    exCachedFlow.flow.stack = [FlowWrapper.new, FlowWrapper.new] ∧
    exCachedFlow.flow.pop ≠ none :=
  ⟨rfl,
    (smart_home_flow_depth_invariant FlowWrapper.new ⟨[], [], []⟩ exCachedFlow
      FlowWrapper.new FlowWrapper.new rfl).2.1⟩

/-! ## Map lemmas for the annealing state -/

theorem mapLookup_mapInsert_self {α : Type} :
    ∀ (l : List (Nat × α)) (k : Nat) (v : α),
    mapLookup (mapInsert l k v) k = some v := by
  intro l
  induction l with
  | nil => intro k v; simp [mapInsert, mapLookup]
  | cons p rest ih =>
    intro k v
    obtain ⟨k', v'⟩ := p
    unfold mapInsert
    by_cases h1 : k < k'
    · rw [if_pos h1]
      simp [mapLookup]
    · rw [if_neg h1]
      by_cases h2 : k = k'
      · rw [if_pos h2]
        simp [mapLookup]
      · rw [if_neg h2]
        unfold mapLookup
        rw [if_neg h2]
        exact ih k v

theorem mapRemove_mapInsert_same {α : Type} :
    ∀ (l : List (Nat × α)) (k : Nat) (v : α),
    mapRemove (mapInsert l k v) k = mapRemove l k := by
  intro l
  induction l with
  | nil => intro k v; simp [mapInsert, mapRemove]
  | cons p rest ih =>
    intro k v
    obtain ⟨k', v'⟩ := p
    unfold mapInsert
    by_cases h1 : k < k'
    · rw [if_pos h1]
      unfold mapRemove
      rw [if_pos rfl]
      rfl
    · rw [if_neg h1]
      by_cases h2 : k = k'
      · rw [if_pos h2]
        unfold mapRemove
        rw [if_pos rfl, if_pos h2]
      · rw [if_neg h2]
        unfold mapRemove
        rw [if_neg h2, if_neg h2, ih]

theorem mapRemove_of_all_lt {α : Type} :
    ∀ (l : List (Nat × α)) (k : Nat), (∀ p ∈ l, k < p.1) →
    mapRemove l k = l := by
  intro l
  induction l with
  | nil => intro k _; rfl
  | cons p rest ih =>
    intro k hall
    obtain ⟨k', v'⟩ := p
    unfold mapRemove
    have hk : k ≠ k' := by
      have := hall (k', v') (List.mem_cons_self ..)
      omega
    rw [if_neg hk, ih k fun q hq => hall q (List.mem_cons_of_mem _ hq)]

theorem mapRemove_mapInsert_roundtrip {α : Type} :
    ∀ (l : List (Nat × α)) (k : Nat) (v : α), mapWF l →
    mapLookup l k = some v →
    mapInsert (mapRemove l k) k v = l := by
  intro l
  induction l with
  | nil => intro k v _ hlook; exact absurd hlook (by simp [mapLookup])
  | cons p rest ih =>
    intro k v hwf hlook
    obtain ⟨k', v'⟩ := p
    have hwfr : mapWF rest := (List.pairwise_cons.mp hwf).2
    by_cases h2 : k = k'
    · subst h2
      unfold mapLookup at hlook
      rw [if_pos rfl] at hlook
      obtain rfl : v' = v := by injection hlook
      unfold mapRemove
      rw [if_pos rfl]
      rw [mapRemove_of_all_lt rest k (List.pairwise_cons.mp hwf).1]
      cases rest with
      | nil => rfl
      | cons q qrest =>
        unfold mapInsert
        rw [if_pos ((List.pairwise_cons.mp hwf).1 q (List.mem_cons_self ..))]
    · unfold mapLookup at hlook
      rw [if_neg h2] at hlook
      have hklt : k' < k := by
        have hmem : ∃ w, (k, w) ∈ rest := by
          clear ih hwf hwfr h2
          induction rest with
          | nil => exact absurd hlook (by simp [mapLookup])
          | cons q qrest ihq =>
            obtain ⟨kq, vq⟩ := q
            unfold mapLookup at hlook
            by_cases hq : k = kq
            · subst hq
              exact ⟨vq, by simp⟩
            · rw [if_neg hq] at hlook
              obtain ⟨w, hw⟩ := ihq hlook
              exact ⟨w, List.mem_cons_of_mem _ hw⟩
        obtain ⟨w, hw⟩ := hmem
        exact (List.pairwise_cons.mp hwf).1 (k, w) hw
      unfold mapRemove
      rw [if_neg h2]
      unfold mapInsert
      rw [if_neg (by omega), if_neg h2, ih k v hwfr hlook]

/-- `mapRemove` is idempotent: removing a key twice equals removing it once. -/
theorem mapRemove_idem {α : Type} (l : List (Nat × α)) (k : Nat) :
    mapRemove (mapRemove l k) k = mapRemove l k := by
  induction l with
  | nil => rfl
  | cons p rest ih =>
    obtain ⟨kp, vp⟩ := p
    show mapRemove (if k = kp then mapRemove rest k else (kp, vp) :: mapRemove rest k) k = _
    by_cases hk : k = kp
    · rw [if_pos hk, ih]
      show mapRemove rest k = if k = kp then mapRemove rest k else (kp, vp) :: mapRemove rest k
      rw [if_pos hk]
    · rw [if_neg hk]
      show (if k = kp then mapRemove (mapRemove rest k) k
        else (kp, vp) :: mapRemove (mapRemove rest k) k) = _
      rw [if_neg hk, ih, show mapRemove ((kp, vp) :: rest) k =
        if k = kp then mapRemove rest k else (kp, vp) :: mapRemove rest k from rfl,
        if_neg hk]

/-! ## Claim C6 -/

/-- C6: applying a random move (remove the chosen constant load, re-add
it with the new start time) and then undoing it (remove, re-add with the
old start time) restores both constant-load assignment maps of the
state, leaves the snapshot stack untouched, and a subsequent `cost()`
call returns the same value as `cost()` before the move — both equal the
cost determined by the baseline graph and the restored map. -/
theorem random_move_undo_restores_cost (m : RandomMoveChange) (st : AnnealState)
    (a : AssignedConstantAction)
    (hsync : st.constant_actions = st.smart_home_flow.constant_actions)
    (hwf : mapWF st.smart_home_flow.constant_actions)
    (hlook : mapLookup st.smart_home_flow.constant_actions m.action_id = some a)
    (hid : a.action.id = m.action_id)
    (hold : a.start_time = m.old_time)
    (hnew : a.action.start_from ≤ m.new_time ∧
      m.new_time + a.action.duration ≤ a.action.end_before)
    (holdv : a.action.start_from ≤ m.old_time ∧
      m.old_time + a.action.duration ≤ a.action.end_before) :
    ∃ s2 s3, m.apply st = some s2 ∧ m.undo s2 = some s3 ∧
      s3.constant_actions = st.constant_actions ∧
      s3.smart_home_flow.constant_actions = st.smart_home_flow.constant_actions ∧
      s3.constant_action_ids = st.constant_action_ids ∧
      s3.smart_home_flow.flow = st.smart_home_flow.flow ∧
      (∀ F base top, st.smart_home_flow.flow.stack = [base, top] →
        cacheConsistent F st.smart_home_flow →
        (AnnealState.get_cost F st).map Prod.fst =
          costOf F base st.smart_home_flow.constant_actions ∧
        (AnnealState.get_cost F s3).map Prod.fst =
          costOf F base st.smart_home_flow.constant_actions) := by
  have hwith_new : a.action.with_start_time m.new_time =
      some ⟨a.action, m.new_time⟩ := by
    unfold ConstantAction.with_start_time
    rw [if_pos hnew]
  have hwith_old : a.action.with_start_time m.old_time =
      some ⟨a.action, m.old_time⟩ := by
    unfold ConstantAction.with_start_time
    rw [if_pos holdv]
  -- the state after `apply`
  have happly : m.apply st = some (AnnealState.add_constant_action
      (st.remove_constant_action m.action_id).2 ⟨a.action, m.new_time⟩) := by
    unfold RandomMoveChange.apply
    unfold AnnealState.remove_constant_action SmartHomeFlow.remove_constant_consumption
    dsimp only
    rw [hlook]
    dsimp only
    rw [hwith_new]
  have hundo : m.undo ((st.remove_constant_action m.action_id).2.add_constant_action
      ⟨a.action, m.new_time⟩) = some
      ((((st.remove_constant_action m.action_id).2.add_constant_action
        ⟨a.action, m.new_time⟩).remove_constant_action m.action_id).2.add_constant_action
        ⟨a.action, m.old_time⟩) := by
    unfold RandomMoveChange.undo
    unfold AnnealState.remove_constant_action SmartHomeFlow.remove_constant_consumption
    dsimp only [AnnealState.add_constant_action, SmartHomeFlow.add_constant_consumption]
    rw [show (⟨a.action, m.new_time⟩ : AssignedConstantAction).get_id = m.action_id from hid]
    rw [mapLookup_mapInsert_self]
    dsimp only
    rw [hwith_old]
  refine ⟨_, _, happly, hundo, ?_⟩
  -- the restored maps and the unchanged stack
  have hmap : mapInsert (mapRemove (mapInsert
        (mapRemove st.smart_home_flow.constant_actions m.action_id) m.action_id
          ⟨a.action, m.new_time⟩) m.action_id) m.action_id
          (⟨a.action, m.old_time⟩ : AssignedConstantAction) =
        st.smart_home_flow.constant_actions := by
      rw [mapRemove_mapInsert_same]
      rw [mapRemove_idem]
      have ha : (⟨a.action, m.old_time⟩ : AssignedConstantAction) = a := by
        rw [← hold]
      rw [ha]
      exact mapRemove_mapInsert_roundtrip _ _ _ hwf hlook
  dsimp only [AnnealState.add_constant_action, SmartHomeFlow.add_constant_consumption,
    AnnealState.remove_constant_action, SmartHomeFlow.remove_constant_consumption,
    AssignedConstantAction.get_id]
  rw [hid]
  refine ⟨by rw [hsync]; exact hmap, hmap, rfl, rfl, ?_⟩
  intro F base top hstack hcc
  constructor
  · -- the cost before the move
    unfold AnnealState.get_cost
    rcases hcache : st.smart_home_flow.calc_result with _ | c0
    · rw [get_cost_spec F st.smart_home_flow base top hstack hcache]
      rcases hmcf : (SmartHomeFlow.addConstantEdges base
          st.smart_home_flow.constant_actions).mincostflow F with _ | ⟨r, w2⟩
      · unfold costOf
        rw [hmcf]
        rfl
      · unfold costOf
        rw [hmcf]
        rfl
    · obtain ⟨base', hb', hcost'⟩ := hcc c0 hcache
      have hbase : base' = base := by
        unfold StackProxy.bottom? at hb'
        rw [hstack] at hb'
        simp at hb'
        exact hb'.symm
      subst hbase
      unfold SmartHomeFlow.get_cost
      rw [hcache]
      rw [hcost']
      rfl
  · -- the cost after apply-undo
    unfold AnnealState.get_cost
    rw [hmap]
    rw [get_cost_spec F ⟨st.smart_home_flow.flow, st.smart_home_flow.constant_actions,
      none, st.smart_home_flow.blueprint⟩ base top hstack rfl]
    rcases hmcf : (SmartHomeFlow.addConstantEdges base
        st.smart_home_flow.constant_actions).mincostflow F with _ | ⟨r, w2⟩
    · unfold costOf
      rw [hmcf]
      rfl
    · unfold costOf
      rw [hmcf]
      rfl

/-- Witness for C6 on the concrete move `exMove` over `exAnnealSt`. -/
theorem random_move_undo_restores_cost_witness :
    mapLookup exAnnealSt.smart_home_flow.constant_actions exMove.action_id =
      some exAssigned ∧
    (exMove.apply exAnnealSt).isSome = true := by
  obtain ⟨s2, s3, h1, _⟩ := random_move_undo_restores_cost exMove exAnnealSt exAssigned
    rfl (by unfold mapWF; exact List.pairwise_singleton ..) (by decide) (by decide)
    (by decide) (by decide) (by decide)
  exact ⟨by decide, by rw [h1]; rfl⟩

/-! ## Claim C3 -/

/-- C3: in the annealing driver a strictly improving move
(`cost_diff < 0`) is always accepted; a non-improving move is accepted
exactly when the uniform draw from `[0, 1)` is strictly below
`exp(-Δ/T)` (integer `Δ` coerced to real) and otherwise undone; and the
set of rejecting draws in `[0, 1)` has measure exactly
`1 - exp(-Δ/T)` — so a non-improving move is rejected with probability
at least `1 - exp(-Δ/T)`. -/
theorem metropolis_acceptance :
    (∀ (d : Int) (T u : ℝ), d < 0 → annealAccepts d T u) ∧
    (∀ (d : Int) (T u : ℝ), 0 ≤ d →
      (annealAccepts d T u ↔ u < Real.exp (-(d : ℝ) / T))) ∧
    (∀ (d : Int) (T : ℝ), 0 ≤ d → 0 < T →
      MeasureTheory.volume
        {u : ℝ | u ∈ Set.Ico (0 : ℝ) 1 ∧ ¬ annealAccepts d T u} =
        ENNReal.ofReal (1 - Real.exp (-(d : ℝ) / T))) := by
  refine ⟨fun d T u hd => Or.inl hd, fun d T u hd => ?_, fun d T hd hT => ?_⟩
  · unfold annealAccepts
    constructor
    · rintro (h | ⟨_, h⟩)
      · omega
      · exact h
    · intro h
      exact Or.inr ⟨by omega, h⟩
  · have he1 : Real.exp (-(d : ℝ) / T) ≤ 1 := by
      rw [Real.exp_le_one_iff]
      apply div_nonpos_of_nonpos_of_nonneg
      · simp
        exact_mod_cast hd
      · exact le_of_lt hT
    have he0 : 0 < Real.exp (-(d : ℝ) / T) := Real.exp_pos _
    have hset : {u : ℝ | u ∈ Set.Ico (0 : ℝ) 1 ∧ ¬ annealAccepts d T u} =
        Set.Ico (Real.exp (-(d : ℝ) / T)) 1 := by
      ext u
      simp only [Set.mem_setOf_eq, Set.mem_Ico, annealAccepts]
      constructor
      · rintro ⟨⟨_, hu1⟩, hacc⟩
        refine ⟨?_, hu1⟩
        by_contra hlt
        exact hacc (Or.inr ⟨by omega, not_le.mp hlt⟩)
      · rintro ⟨hge, hu1⟩
        refine ⟨⟨le_trans (le_of_lt he0) hge, hu1⟩, ?_⟩
        rintro (h | ⟨_, hlt⟩)
        · omega
        · exact absurd hlt (not_lt.mpr hge)

    rw [hset, Real.volume_Ico]

/-- Witness for C3: a strictly improving move is accepted. -/
theorem metropolis_acceptance_witness : annealAccepts (-1) 1 0 :=
  metropolis_acceptance.1 (-1) 1 0 (by norm_num)

/-! ## Claim C4 -/

theorem applyAll_concat {T : Type} :
    ∀ (fs : List (T → T)) (l : List T) (y : T),
    (StackProxy.applyAll fs ⟨l ++ [y]⟩).stack =
      l ++ [fs.foldl (fun a f => f a) y] := by
  intro fs
  induction fs with
  | nil => intro l y; rfl
  | cons f rest ih =>
    intro l y
    show (StackProxy.applyAll rest (StackProxy.modifyTop ⟨l ++ [y]⟩ f)).stack = _
    have hmod : StackProxy.modifyTop (⟨l ++ [y]⟩ : StackProxy T) f = ⟨l ++ [f y]⟩ := by
      unfold StackProxy.modifyTop
      rw [List.getLast?_concat]
      simp
    rw [hmod]
    exact ih l (f y)

theorem stackProxy_push_spec {T : Type} (s : StackProxy T) (x : T)
    (htop : s.top? = some x) :
    (s.push).stack = s.stack ++ [x] := by
  unfold StackProxy.push
  unfold StackProxy.top? at htop
  rw [htop]

/-- C4: `push` duplicates the top; `pop` at depth 1 fails fatally and at
greater depth discards exactly the top; non-stack operations are
forwarded to the top frame only; consequently `push`, any sequence of
mutations, then `pop` restores the pre-push state bit-for-bit. -/
theorem stack_proxy_snapshot_roundtrip {T : Type} (s : StackProxy T) (x : T)
    (fs : List (T → T)) (htop : s.top? = some x) :
    (s.push).stack = s.stack ++ [x] ∧
    (s.depth = 1 → s.pop = none) ∧
    (1 < s.depth → s.pop = some ⟨s.stack.dropLast⟩) ∧
    (StackProxy.applyAll fs s.push).pop = some s := by
  have hpush : (s.push).stack = s.stack ++ [x] := stackProxy_push_spec s x htop
  refine ⟨hpush, ?_, ?_, ?_⟩
  · intro hd
    unfold StackProxy.pop
    rw [if_neg (by unfold StackProxy.depth at hd; omega)]
  · intro hd
    unfold StackProxy.pop
    rw [if_pos (by unfold StackProxy.depth at hd; omega)]
  · have hs : s.push = (⟨s.stack ++ [x]⟩ : StackProxy T) := by
      have heta : (⟨s.push.stack⟩ : StackProxy T) = s.push := rfl
      rw [← heta, hpush]
    have hne : s.stack ≠ [] := by
      intro h
      unfold StackProxy.top? at htop
      rw [h] at htop
      simp at htop
    rw [hs]
    have happ := applyAll_concat fs s.stack x
    unfold StackProxy.pop
    rw [if_pos (by rw [happ]; simp only [List.length_append, List.length_cons,
      List.length_nil]; have := List.length_pos.mpr hne; omega)]
    rw [show (StackProxy.applyAll fs ⟨s.stack ++ [x]⟩).stack.dropLast = s.stack by
      rw [happ]; exact List.dropLast_concat ..]

/-- Witness for C4 on a concrete three-element run. -/
theorem stack_proxy_snapshot_roundtrip_witness :
    (StackProxy.new 5).top? = some 5 ∧
    (StackProxy.applyAll [fun x => x + 1, fun x => x * 2]
      (StackProxy.new 5).push).pop = some (StackProxy.new 5) :=
  ⟨rfl,
    (stack_proxy_snapshot_roundtrip (StackProxy.new 5) 5
      [fun x => x + 1, fun x => x * 2] rfl).2.2.2⟩

/-- Witness for C7 on the fresh two-node graph. -/
theorem mcmf_edge_pair_invariant_witness :
    (MinCostFlow.new.edges.length % 2 = 0) ∧
    (MinCostFlow.new.add_edge 0 1 3 2).1 = 0 ∧
    edAt (MinCostFlow.new.add_edge 0 1 3 2).2.edges 0 = ⟨1, 3, 2⟩ :=
  ⟨by decide,
    (mcmf_edge_pair_invariant MinCostFlow.new 0 1 3 2 (by decide)).1,
    (mcmf_edge_pair_invariant MinCostFlow.new 0 1 3 2 (by decide)).2.2.2.1⟩

/-! ## Claim C8 -/

theorem mapLookup_mapInsert_ne {α : Type} :
    ∀ (l : List (Nat × α)) (k k2 : Nat) (v : α), k2 ≠ k →
    mapLookup (mapInsert l k v) k2 = mapLookup l k2 := by
  intro l
  induction l with
  | nil =>
    intro k k2 v hne
    unfold mapInsert mapLookup
    rw [if_neg hne]
    rfl
  | cons p rest ih =>
    intro k k2 v hne
    obtain ⟨kp, vp⟩ := p
    unfold mapInsert
    by_cases h1 : k < kp
    · rw [if_pos h1]
      unfold mapLookup
      rw [if_neg hne]
      rfl
    · rw [if_neg h1]
      by_cases h2 : k = kp
      · rw [if_pos h2]
        unfold mapLookup
        rw [if_neg hne, if_neg (h2 ▸ hne)]
      · rw [if_neg h2]
        unfold mapLookup
        by_cases h3 : k2 = kp
        · rw [if_pos h3, if_pos h3]
        · rw [if_neg h3, if_neg h3]
          exact ih k k2 v hne

theorem newStep_calls (generate price consume : Nat → Int)
    (b : SmartHomeFlowBuilderE) (i : Nat) :
    (SmartHomeFlowBuilderE.newStep generate price consume b i).calls =
      b.calls ++ stepCalls generate price consume i := by
  by_cases hg : 0 < generate i <;> by_cases hc : 0 < consume i <;>
    simp [SmartHomeFlowBuilderE.newStep, SmartHomeFlowBuilderE.addCall, stepCalls, hg, hc]

theorem newStep_network_bp (generate price consume : Nat → Int)
    (b : SmartHomeFlowBuilderE) (i : Nat) :
    (SmartHomeFlowBuilderE.newStep generate price consume b i).network_bp =
      mapInsert b.network_bp i
        (2 * (b.calls.length + if 0 < generate i then 1 else 0)) := by
  by_cases hg : 0 < generate i <;> by_cases hc : 0 < consume i <;>
    simp [SmartHomeFlowBuilderE.newStep, SmartHomeFlowBuilderE.addCall, traceHandle, hg, hc]

theorem foldl_newStep_calls (generate price consume : Nat → Int) :
    ∀ (l : List Nat) (b : SmartHomeFlowBuilderE),
    ((l.foldl (SmartHomeFlowBuilderE.newStep generate price consume) b).calls =
      b.calls ++ l.flatMap (stepCalls generate price consume)) := by
  intro l
  induction l with
  | nil => intro b; simp
  | cons x xs ih =>
    intro b
    simp only [List.foldl_cons, List.flatMap_cons]
    rw [ih, newStep_calls, List.append_assoc]

theorem foldl_newStep_length (generate price consume : Nat → Int)
    (l : List Nat) (b : SmartHomeFlowBuilderE) :
    (l.foldl (SmartHomeFlowBuilderE.newStep generate price consume) b).calls.length =
      b.calls.length + (l.map fun i => (stepCalls generate price consume i).length).sum := by
  rw [foldl_newStep_calls]
  simp [List.length_flatMap]
  rfl

theorem foldl_newStep_network_bp (generate price consume : Nat → Int) :
    ∀ (n : Nat) (b : SmartHomeFlowBuilderE) (t : Nat), t < n →
    mapLookup ((List.range n).foldl
        (SmartHomeFlowBuilderE.newStep generate price consume) b).network_bp t =
      some (2 * (b.calls.length +
        ((List.range t).map fun i => (stepCalls generate price consume i).length).sum +
        if 0 < generate t then 1 else 0)) := by
  intro n
  induction n with
  | zero => intro b t ht; omega
  | succ n ih =>
    intro b t ht
    rw [List.range_succ, List.foldl_append, List.foldl_cons, List.foldl_nil]
    rw [newStep_network_bp]
    by_cases hteq : t = n
    · subst hteq
      rw [mapLookup_mapInsert_self]
      rw [foldl_newStep_length]
    · rw [mapLookup_mapInsert_ne _ _ _ _ hteq]
      exact ih b t (by omega)

theorem new_calls (steps : Nat) (generate price consume : Nat → Int) (f : ℚ) :
    (SmartHomeFlowBuilderE.new steps generate price consume f).calls =
      ⟨FlowNode.Source, FlowNode.Generator, I64_MAX, 0⟩ ::
        ⟨FlowNode.Source, FlowNode.Network, I64_MAX, 0⟩ ::
          (List.range steps).flatMap (stepCalls generate price consume) := by
  unfold SmartHomeFlowBuilderE.new
  rw [foldl_newStep_calls]
  rfl

theorem new_network_bp (steps : Nat) (generate price consume : Nat → Int) (f : ℚ)
    (t : Nat) (ht : t < steps) :
    mapLookup (SmartHomeFlowBuilderE.new steps generate price consume f).network_bp t =
      some (networkHandle generate price consume t) := by
  unfold SmartHomeFlowBuilderE.new networkHandle
  rw [foldl_newStep_network_bp generate price consume steps _ t ht]
  simp [SmartHomeFlowBuilderE.addCall]

theorem new_call_at_networkHandle (steps : Nat) (generate price consume : Nat → Int)
    (f : ℚ) (t : Nat) (ht : t < steps) :
    (SmartHomeFlowBuilderE.new steps generate price consume
        f).calls[networkHandle generate price consume t / 2]? =
      some ⟨FlowNode.Network, FlowNode.Wire t, I64_MAX, price t⟩ := by
  have hsplit : List.range steps =
      List.range t ++ (t :: List.range' (t + 1) (steps - (t + 1))) := by
    conv_lhs => rw [show steps = t + (steps - t) from by omega]
    rw [List.range_add]
    congr 1
    rw [show steps - t = (steps - (t + 1)) + 1 from by omega]
    rw [← List.range'_eq_map_range]
    exact List.range'_succ t (steps - (t + 1)) 1
  have hlen : ((List.range t).flatMap (stepCalls generate price consume)).length =
      ((List.range t).map fun i => (stepCalls generate price consume i).length).sum := by
    rw [List.length_flatMap]
    rfl
  have hdiv : networkHandle generate price consume t / 2 =
      (((List.range t).flatMap (stepCalls generate price consume)).length +
        (if 0 < generate t then 1 else 0)) + 1 + 1 := by
    unfold networkHandle
    rw [hlen]
    omega
  rw [new_calls, hsplit, List.flatMap_append, List.flatMap_cons, hdiv]
  rw [List.getElem?_cons_succ, List.getElem?_cons_succ]
  rw [List.getElem?_append_right (by omega)]
  rw [show ((List.range t).flatMap (stepCalls generate price consume)).length +
      (if 0 < generate t then 1 else 0) -
      ((List.range t).flatMap (stepCalls generate price consume)).length =
      (if 0 < generate t then 1 else 0) from by omega]
  by_cases hg : 0 < generate t
  · simp [stepCalls, hg]
  · simp [stepCalls, hg]

theorem mem_stepCalls_generator (generate price consume : Nat → Int)
    (t i : Nat) (cap co : Int) :
    (⟨FlowNode.Generator, FlowNode.Wire t, cap, co⟩ : TCall) ∈
        stepCalls generate price consume i ↔
      (i = t ∧ cap = generate i ∧ co = 0 ∧ 0 < generate i) := by
  unfold stepCalls
  by_cases hg : 0 < generate i <;> by_cases hc : 0 < consume i <;>
    simp [hg, hc, TCall.mk.injEq, and_comm, eq_comm] <;> aesop

theorem mem_stepCalls_sink (generate price consume : Nat → Int)
    (t i : Nat) (cap co : Int) :
    (⟨FlowNode.Wire t, FlowNode.Sink, cap, co⟩ : TCall) ∈
        stepCalls generate price consume i ↔
      (i = t ∧ cap = consume i ∧ co = 0 ∧ 0 < consume i) := by
  unfold stepCalls
  by_cases hg : 0 < generate i <;> by_cases hc : 0 < consume i <;>
    simp [hg, hc, TCall.mk.injEq, and_comm, eq_comm] <;> aesop

theorem new_mem_generator (steps : Nat) (generate price consume : Nat → Int)
    (f : ℚ) (t : Nat) (cap co : Int) :
    ((⟨FlowNode.Generator, FlowNode.Wire t, cap, co⟩ : TCall) ∈
        (SmartHomeFlowBuilderE.new steps generate price consume f).calls) ↔
      (t < steps ∧ cap = generate t ∧ co = 0 ∧ 0 < generate t) := by
  rw [new_calls]
  simp only [List.mem_cons, List.mem_flatMap, List.mem_range,
    mem_stepCalls_generator]
  constructor
  · rintro (h | h | ⟨i, hi, rfl, hcap, hco, hgi⟩)
    · cases h
    · cases h
    · exact ⟨hi, hcap, hco, hgi⟩
  · rintro ⟨hts, hcap, hco, hgt⟩
    exact Or.inr (Or.inr ⟨t, hts, rfl, hcap, hco, hgt⟩)

theorem new_mem_sink (steps : Nat) (generate price consume : Nat → Int)
    (f : ℚ) (t : Nat) (cap co : Int) :
    ((⟨FlowNode.Wire t, FlowNode.Sink, cap, co⟩ : TCall) ∈
        (SmartHomeFlowBuilderE.new steps generate price consume f).calls) ↔
      (t < steps ∧ cap = consume t ∧ co = 0 ∧ 0 < consume t) := by
  rw [new_calls]
  simp only [List.mem_cons, List.mem_flatMap, List.mem_range,
    mem_stepCalls_sink]
  constructor
  · rintro (h | h | ⟨i, hi, rfl, hcap, hco, hci⟩)
    · cases h
    · cases h
    · exact ⟨hi, hcap, hco, hci⟩
  · rintro ⟨hts, hcap, hco, hct⟩
    exact Or.inr (Or.inr ⟨t, hts, rfl, hcap, hco, hct⟩)

/-- C8: in the graph `SmartHomeFlowBuilder::new` builds, every timestep
`t` of the day has a `Network → Wire(t)` edge with unlimited capacity
(`i64::MAX`) and cost `price[t]`, whose handle is recorded in the network
consumption blueprint (the handle is even and names exactly that call);
a `Generator → Wire(t)` edge with capacity `generation[t]` and cost `0`
exists if and only if `generation[t] > 0`; and a `Wire(t) → Sink` edge
with capacity `uncontrolled[t]` and cost `0` exists if and only if
`uncontrolled[t] > 0`. -/
theorem builder_per_timestep_edges (steps : Nat) (generate price consume : Nat → Int)
    (f : ℚ) (t : Nat) (ht : t < steps) :
    (mapLookup (SmartHomeFlowBuilderE.blueprint
        (SmartHomeFlowBuilderE.new steps generate price
          consume f)).network_consumption_blueprint t =
      some (networkHandle generate price consume t)) ∧
    networkHandle generate price consume t % 2 = 0 ∧
    ((SmartHomeFlowBuilderE.new steps generate price consume
        f).calls[networkHandle generate price consume t / 2]? =
      some ⟨FlowNode.Network, FlowNode.Wire t, I64_MAX, price t⟩) ∧
    ((⟨FlowNode.Generator, FlowNode.Wire t, generate t, 0⟩ : TCall) ∈
        (SmartHomeFlowBuilderE.new steps generate price consume f).calls ↔
      0 < generate t) ∧
    ((⟨FlowNode.Wire t, FlowNode.Sink, consume t, 0⟩ : TCall) ∈
        (SmartHomeFlowBuilderE.new steps generate price consume f).calls ↔
      0 < consume t) := by
  refine ⟨new_network_bp steps generate price consume f t ht, ?_,
    new_call_at_networkHandle steps generate price consume f t ht, ?_, ?_⟩
  · unfold networkHandle
    omega
  · rw [new_mem_generator]
    constructor
    · rintro ⟨_, _, _, h⟩
      exact h
    · intro h
      exact ⟨ht, rfl, rfl, h⟩
  · rw [new_mem_sink]
    constructor
    · rintro ⟨_, _, _, h⟩
      exact h
    · intro h
      exact ⟨ht, rfl, rfl, h⟩

/-- Witness for C8 on a concrete two-step context. -/
theorem builder_per_timestep_edges_witness :
    1 < 2 ∧
    ((mapLookup (SmartHomeFlowBuilderE.blueprint
        (SmartHomeFlowBuilderE.new 2 (fun i => 4 - 4 * i) (fun i => 3 + i)
          (fun i => 6 * i) 1)).network_consumption_blueprint 1 =
      some (networkHandle (fun i => 4 - 4 * i) (fun i => 3 + i) (fun i => 6 * i) 1)) ∧
    networkHandle (fun i => 4 - 4 * i) (fun i => 3 + i) (fun i => 6 * i) 1 % 2 = 0 ∧
    ((SmartHomeFlowBuilderE.new 2 (fun i => 4 - 4 * i) (fun i => 3 + i) (fun i => 6 * i)
        1).calls[networkHandle (fun i => 4 - 4 * i) (fun i => 3 + i)
          (fun i => 6 * i) 1 / 2]? =
      some ⟨FlowNode.Network, FlowNode.Wire 1, I64_MAX, 3 + 1⟩) ∧
    ((⟨FlowNode.Generator, FlowNode.Wire 1, 4 - 4 * 1, 0⟩ : TCall) ∈
        (SmartHomeFlowBuilderE.new 2 (fun i => 4 - 4 * i) (fun i => 3 + i)
          (fun i => 6 * i) 1).calls ↔
      0 < 4 - 4 * (1 : Int)) ∧
    ((⟨FlowNode.Wire 1, FlowNode.Sink, 6 * 1, 0⟩ : TCall) ∈
        (SmartHomeFlowBuilderE.new 2 (fun i => 4 - 4 * i) (fun i => 3 + i)
          (fun i => 6 * i) 1).calls ↔
      0 < 6 * (1 : Int))) :=
  ⟨by decide,
    builder_per_timestep_edges 2 (fun i => 4 - 4 * i) (fun i => 3 + i)
      (fun i => 6 * i) 1 1 (by decide)⟩

/-! ## Claim C9 -/

theorem batteryStep_calls (bat : Battery) (b : SmartHomeFlowBuilderE) (t : Nat) :
    (SmartHomeFlowBuilderE.batteryStep bat b t).calls = b.calls ++
      [⟨FlowNode.Wire t, FlowNode.Battery bat.id t,
          SmartHomeFlowBuilderE.scaledCap b.first_timestep_fraction
            bat.maximum_charge_rate t, 0⟩,
        ⟨FlowNode.Battery bat.id t, FlowNode.Wire t,
          SmartHomeFlowBuilderE.scaledCap b.first_timestep_fraction
            bat.maximum_output_rate t, 0⟩] := by
  simp [SmartHomeFlowBuilderE.batteryStep, SmartHomeFlowBuilderE.addCall]

theorem batteryStep_frac (bat : Battery) (b : SmartHomeFlowBuilderE) (t : Nat) :
    (SmartHomeFlowBuilderE.batteryStep bat b t).first_timestep_fraction =
      b.first_timestep_fraction := rfl

theorem batteryStep_steps (bat : Battery) (b : SmartHomeFlowBuilderE) (t : Nat) :
    (SmartHomeFlowBuilderE.batteryStep bat b t).steps = b.steps := rfl

theorem foldl_batteryStep_spec (bat : Battery) :
    ∀ (l : List Nat) (b : SmartHomeFlowBuilderE),
    ((l.foldl (SmartHomeFlowBuilderE.batteryStep bat) b).calls = b.calls ++
      l.flatMap fun t =>
        [⟨FlowNode.Wire t, FlowNode.Battery bat.id t,
            SmartHomeFlowBuilderE.scaledCap b.first_timestep_fraction
              bat.maximum_charge_rate t, 0⟩,
          ⟨FlowNode.Battery bat.id t, FlowNode.Wire t,
            SmartHomeFlowBuilderE.scaledCap b.first_timestep_fraction
              bat.maximum_output_rate t, 0⟩]) ∧
    (l.foldl (SmartHomeFlowBuilderE.batteryStep bat) b).first_timestep_fraction =
      b.first_timestep_fraction ∧
    (l.foldl (SmartHomeFlowBuilderE.batteryStep bat) b).steps = b.steps := by
  intro l
  induction l with
  | nil => intro b; exact ⟨by simp, rfl, rfl⟩
  | cons x xs ih =>
    intro b
    obtain ⟨hc, hf, hs⟩ := ih (SmartHomeFlowBuilderE.batteryStep bat b x)
    refine ⟨?_, ?_, ?_⟩
    · simp only [List.foldl_cons, List.flatMap_cons]
      rw [hc, batteryStep_calls, batteryStep_frac, List.append_assoc]
    · simp only [List.foldl_cons]
      exact hf
    · simp only [List.foldl_cons]
      exact hs

theorem foldl_batteryPersistStep_spec (bat : Battery) :
    ∀ (l : List Nat) (bs : SmartHomeFlowBuilderE × List (Nat × Nat)),
    ((l.foldl (SmartHomeFlowBuilderE.batteryPersistStep bat) bs).1.calls =
      bs.1.calls ++ l.map fun t =>
        ⟨FlowNode.Battery bat.id t, FlowNode.Battery bat.id (t + 1),
          bat.capacity, 0⟩) ∧
    (l.foldl (SmartHomeFlowBuilderE.batteryPersistStep bat)
        bs).1.first_timestep_fraction = bs.1.first_timestep_fraction ∧
    (l.foldl (SmartHomeFlowBuilderE.batteryPersistStep bat) bs).1.steps =
      bs.1.steps := by
  intro l
  induction l with
  | nil => intro bs; exact ⟨by simp, rfl, rfl⟩
  | cons x xs ih =>
    intro bs
    obtain ⟨hc, hf, hs⟩ := ih (SmartHomeFlowBuilderE.batteryPersistStep bat bs x)
    refine ⟨?_, ?_, ?_⟩
    · simp only [List.foldl_cons, List.map_cons]
      rw [hc]
      show (bs.1.addCall _).2.calls ++ _ = _
      rw [show (bs.1.addCall ⟨FlowNode.Battery bat.id x,
          FlowNode.Battery bat.id (x + 1), bat.capacity, 0⟩).2.calls =
        bs.1.calls ++ [⟨FlowNode.Battery bat.id x, FlowNode.Battery bat.id (x + 1),
          bat.capacity, 0⟩] from rfl, List.append_assoc]
      rfl
    · simp only [List.foldl_cons]
      exact hf
    · simp only [List.foldl_cons]
      exact hs

theorem add_battery_calls (b : SmartHomeFlowBuilderE) (bat : Battery) :
    (b.add_battery bat).calls =
      b.calls ++ batteryCalls b.first_timestep_fraction bat b.steps := by
  rw [show (b.add_battery bat).calls =
      (((List.range ((List.range b.steps).foldl (SmartHomeFlowBuilderE.batteryStep bat)
            (b.addCall ⟨FlowNode.Source, FlowNode.Battery bat.id 0,
              bat.initial_level, 0⟩).2).steps).foldl
          (SmartHomeFlowBuilderE.batteryPersistStep bat)
          ((List.range b.steps).foldl (SmartHomeFlowBuilderE.batteryStep bat)
            (b.addCall ⟨FlowNode.Source, FlowNode.Battery bat.id 0,
              bat.initial_level, 0⟩).2, [])).1).calls from rfl]
  obtain ⟨hc2, hf2, hs2⟩ := foldl_batteryStep_spec bat (List.range b.steps)
    ((b.addCall ⟨FlowNode.Source, FlowNode.Battery bat.id 0, bat.initial_level, 0⟩).2)
  rw [hs2]
  rw [show ((b.addCall ⟨FlowNode.Source, FlowNode.Battery bat.id 0,
      bat.initial_level, 0⟩).2).steps = b.steps from rfl]
  obtain ⟨hc3, hf3, hs3⟩ := foldl_batteryPersistStep_spec bat (List.range b.steps)
    ((List.range b.steps).foldl (SmartHomeFlowBuilderE.batteryStep bat)
      (b.addCall ⟨FlowNode.Source, FlowNode.Battery bat.id 0, bat.initial_level, 0⟩).2, [])
  rw [hc3]
  show ((List.range b.steps).foldl (SmartHomeFlowBuilderE.batteryStep bat)
      (b.addCall ⟨FlowNode.Source, FlowNode.Battery bat.id 0,
        bat.initial_level, 0⟩).2).calls ++ _ = _
  rw [hc2]
  simp [SmartHomeFlowBuilderE.addCall, batteryCalls, List.append_assoc]

theorem foldl_actionStep_spec (a : VariableAction) :
    ∀ (l : List Nat) (bs : SmartHomeFlowBuilderE × List (Nat × Nat)),
    ((l.foldl (SmartHomeFlowBuilderE.actionStep a) bs).1.calls =
      bs.1.calls ++ l.map fun t =>
        ⟨FlowNode.Wire t, FlowNode.Action a.id,
          SmartHomeFlowBuilderE.scaledCap bs.1.first_timestep_fraction
            a.max_consumption t, 0⟩) ∧
    (l.foldl (SmartHomeFlowBuilderE.actionStep a)
        bs).1.first_timestep_fraction = bs.1.first_timestep_fraction := by
  intro l
  induction l with
  | nil => intro bs; exact ⟨by simp, rfl⟩
  | cons x xs ih =>
    intro bs
    obtain ⟨hc, hf⟩ := ih (SmartHomeFlowBuilderE.actionStep a bs x)
    refine ⟨?_, ?_⟩
    · simp only [List.foldl_cons, List.map_cons]
      rw [hc]
      show (bs.1.addCall _).2.calls ++ _ = _
      rw [show (bs.1.addCall ⟨FlowNode.Wire x, FlowNode.Action a.id,
          SmartHomeFlowBuilderE.scaledCap bs.1.first_timestep_fraction
            a.max_consumption x, 0⟩).2.calls =
        bs.1.calls ++ [⟨FlowNode.Wire x, FlowNode.Action a.id,
          SmartHomeFlowBuilderE.scaledCap bs.1.first_timestep_fraction
            a.max_consumption x, 0⟩] from rfl, List.append_assoc]
      rfl
    · simp only [List.foldl_cons]
      exact hf

theorem add_action_calls (b : SmartHomeFlowBuilderE) (a : VariableAction) :
    (b.add_action a).calls = b.calls ++ actionCalls b.first_timestep_fraction a := by
  rw [show (b.add_action a).calls =
      ((((List.range' a.start (a.stop - a.start)).foldl
          (SmartHomeFlowBuilderE.actionStep a) (b, [])).1.addCall
        ⟨FlowNode.Action a.id, FlowNode.Sink, a.total_consumption, 0⟩).2).calls from rfl]
  obtain ⟨hc, hf⟩ := foldl_actionStep_spec a (List.range' a.start (a.stop - a.start)) (b, [])
  rw [show ((((List.range' a.start (a.stop - a.start)).foldl
      (SmartHomeFlowBuilderE.actionStep a) (b, [])).1.addCall
        ⟨FlowNode.Action a.id, FlowNode.Sink, a.total_consumption, 0⟩).2).calls =
    (((List.range' a.start (a.stop - a.start)).foldl
      (SmartHomeFlowBuilderE.actionStep a) (b, [])).1).calls ++
        [⟨FlowNode.Action a.id, FlowNode.Sink, a.total_consumption, 0⟩] from rfl]
  rw [hc]
  simp [actionCalls, List.append_assoc]

/-- C9: with `first_timestep_fraction` in `(0, 1]` the builder scales
exactly the step-0 rate-limited capacities. `add_battery` appends, for
every step `t`, the `Wire(t) → Battery(b,t)` and `Battery(b,t) → Wire(t)`
edges with capacity `scaledCap` of `max_charge` / `max_discharge`, and
`add_action` appends one `Wire(t) → Action(a)` edge with capacity
`scaledCap` of `max_consumption` for each step of its window — where
`scaledCap` is `round(cap · fraction)` at timestep `0` of the day and the
unscaled `cap` at every other step. -/
theorem builder_first_timestep_scaling (b : SmartHomeFlowBuilderE)
    (bat : Battery) (a : VariableAction)
    (hf : 0 < b.first_timestep_fraction ∧ b.first_timestep_fraction ≤ 1) :
    (b.add_battery bat).calls =
      b.calls ++ batteryCalls b.first_timestep_fraction bat b.steps ∧
    (b.add_action a).calls =
      b.calls ++ actionCalls b.first_timestep_fraction a ∧
    (∀ cap : Int, SmartHomeFlowBuilderE.scaledCap b.first_timestep_fraction cap 0 =
      rustRound ((cap : ℚ) * b.first_timestep_fraction)) ∧
    (∀ (cap : Int) (t : Nat), 0 < t →
      SmartHomeFlowBuilderE.scaledCap b.first_timestep_fraction cap t = cap) := by
  refine ⟨add_battery_calls b bat, add_action_calls b a, fun cap => ?_, fun cap t ht => ?_⟩
  · unfold SmartHomeFlowBuilderE.scaledCap
    rw [if_pos rfl]
  · unfold SmartHomeFlowBuilderE.scaledCap
    rw [if_neg (by omega)]

/-- Witness for C9 on `exInfBuilder` (fraction 1), `exBattery` and
`exInfVarAction`. -/
theorem builder_first_timestep_scaling_witness :
    (0 < exInfBuilder.first_timestep_fraction ∧
      exInfBuilder.first_timestep_fraction ≤ 1) ∧
    ((exInfBuilder.add_battery exBattery).calls =
      exInfBuilder.calls ++ batteryCalls exInfBuilder.first_timestep_fraction
        exBattery exInfBuilder.steps ∧
    (exInfBuilder.add_action exInfVarAction).calls =
      exInfBuilder.calls ++ actionCalls exInfBuilder.first_timestep_fraction
        exInfVarAction ∧
    (∀ cap : Int, SmartHomeFlowBuilderE.scaledCap
        exInfBuilder.first_timestep_fraction cap 0 =
      rustRound ((cap : ℚ) * exInfBuilder.first_timestep_fraction)) ∧
    (∀ (cap : Int) (t : Nat), 0 < t →
      SmartHomeFlowBuilderE.scaledCap
        exInfBuilder.first_timestep_fraction cap t = cap)) :=
  ⟨⟨by decide, by decide⟩,
    builder_first_timestep_scaling exInfBuilder exBattery exInfVarAction
      ⟨by decide, by decide⟩⟩

/-! ## Claim C1 -/

/-- C1: the cost computation never surfaces flow infeasibility. On the
over-constrained one-step context (`exInfFlow`: the mandated total flow
is `10`, but the per-step cap bounds the solved max flow by `1`) the
solver indeed delivers max flow `1 < 10`, yet `get_cost` still returns
the plain cost `10` — `calc_flow` discards the solver's flow value and
caches the cost unconditionally, so no infeasibility failure reaches the
caller and the shortfall is silently absorbed. -/
theorem calc_flow_ignores_infeasibility :
    calculate_total_flow [exInfVarAction] (fun _ => 0) 2 = 10 ∧
    ((SmartHomeFlow.addConstantEdges
        (SmartHomeFlowBuilderE.lowerCalls exInfBuilder.calls) []).mincostflow 100).map
      (fun p => p.1) = some (10, 1) ∧
    (SmartHomeFlow.get_cost 100 exInfFlow).map (fun p => p.1) = some 10 :=
  ⟨by decide, by decide, by decide⟩

end EPO
